import Mathlib

set_option maxHeartbeats 1000000

/-!
Verification development for the chat backend of segov-dev
(`backend/app/routes_chat.py`, `backend/app/memory.py`).

Strings are modelled as `List Char`.  The whitespace class used by the
one-shot regex (`\s`) and by the streaming filter (`str.lstrip`) is modelled
by one predicate `isWS`, matching Python where both use the same class of
characters for the inputs of interest.
-/

namespace RoutesChat

/-- Whitespace test, shared by the one-shot regex model (the trailing `\s*`)
and the streaming filter's `lstrip()`. -/
def isWS (c : Char) : Bool := c.isWhitespace

/-- The start marker `<think>`. -/
def thinkOpen : List Char := "<think>".toList

/-- The end marker `</think>`. -/
def thinkClose : List Char := "</think>".toList

theorem thinkOpen_length : thinkOpen.length = 7 := by decide

theorem thinkClose_length : thinkClose.length = 8 := by decide

/-- The pattern `p` occurs in `s` at position `k`. -/
def occursAt (p s : List Char) (k : Nat) : Prop := (s.drop k).take p.length = p

instance (p s : List Char) (k : Nat) : Decidable (occursAt p s k) := by
  unfold occursAt; infer_instance

/-- Index of the first occurrence of `p` in `s`; models Python's `str.find`
(and the `in` test) for a nonempty pattern `p`. -/
def firstIdx (p : List Char) : List Char → Option Nat
  | [] => none
  | c :: s => if (c :: s).take p.length = p then some 0 else (firstIdx p s).map (· + 1)

theorem occursAt_cons_succ (p : List Char) (c : Char) (s : List Char) (k : Nat) :
    occursAt p (c :: s) (k + 1) ↔ occursAt p s k := by
  simp [occursAt]

theorem occursAt_zero (p s : List Char) : occursAt p s 0 ↔ s.take p.length = p := by
  simp [occursAt]

theorem occursAt_nil (p : List Char) (hp : p ≠ []) (k : Nat) : ¬ occursAt p [] k := by
  simp [occursAt]
  intro h
  exact hp h

theorem firstIdx_none (p : List Char) (hp : p ≠ []) :
    ∀ s : List Char, firstIdx p s = none → ∀ k, ¬ occursAt p s k := by
  intro s
  induction s with
  | nil => intro _ k; exact occursAt_nil p hp k
  | cons c s ih =>
    intro h k
    rw [firstIdx] at h
    split at h
    · exact absurd h (by simp)
    · cases k with
      | zero =>
        intro hocc
        rename_i hne
        exact hne ((occursAt_zero p (c :: s)).mp hocc)
      | succ k =>
        rw [occursAt_cons_succ]
        exact ih (by simpa using h) k

theorem firstIdx_some_occ (p : List Char) :
    ∀ s i, firstIdx p s = some i → occursAt p s i := by
  intro s
  induction s with
  | nil => intro i h; rw [firstIdx] at h; exact absurd h (by simp)
  | cons c s ih =>
    intro i h
    rw [firstIdx] at h
    split at h
    · rename_i ht
      cases h
      exact (occursAt_zero p (c :: s)).mpr ht
    · rcases Option.map_eq_some'.mp h with ⟨j, hj, rfl⟩
      rw [occursAt_cons_succ]
      exact ih j hj

theorem firstIdx_some_min (p : List Char) :
    ∀ s i, firstIdx p s = some i → ∀ k, k < i → ¬ occursAt p s k := by
  intro s
  induction s with
  | nil => intro i h; rw [firstIdx] at h; exact absurd h (by simp)
  | cons c s ih =>
    intro i h k hk
    rw [firstIdx] at h
    split at h
    · cases h; omega
    · rcases Option.map_eq_some'.mp h with ⟨j, hj, rfl⟩
      cases k with
      | zero =>
        rename_i hne
        exact fun hx => hne ((occursAt_zero p (c :: s)).mp hx)
      | succ k =>
        rw [occursAt_cons_succ]
        exact ih j hj k (by omega)

theorem occursAt_length (p s : List Char) (hp : p ≠ []) (k : Nat) (h : occursAt p s k) :
    k + p.length ≤ s.length := by
  have hl := congrArg List.length h
  simp only [List.length_take, List.length_drop] at hl
  have hplen : 0 < p.length := List.length_pos.mpr hp
  omega

theorem firstIdx_some_bound (p s : List Char) (hp : p ≠ []) (i : Nat)
    (h : firstIdx p s = some i) : i + p.length ≤ s.length :=
  occursAt_length p s hp i (firstIdx_some_occ p s i h)

theorem firstIdx_intro (p : List Char) (hp : p ≠ []) :
    ∀ s i, occursAt p s i → (∀ k, k < i → ¬ occursAt p s k) → firstIdx p s = some i := by
  intro s
  induction s with
  | nil => intro i hocc _; exact absurd hocc (occursAt_nil p hp i)
  | cons c s ih =>
    intro i hocc hmin
    rw [firstIdx]
    cases i with
    | zero =>
      rw [if_pos ((occursAt_zero p (c :: s)).mp hocc)]
    | succ i =>
      rw [if_neg (fun hx => hmin 0 (by omega) ((occursAt_zero p (c :: s)).mpr hx))]
      rw [occursAt_cons_succ] at hocc
      have : firstIdx p s = some i := by
        apply ih i hocc
        intro k hk
        have := hmin (k + 1) (by omega)
        rw [occursAt_cons_succ] at this
        exact this
      simp [this]

theorem occursAt_append_left (p : List Char) (hp : p ≠ []) (u b : List Char) (k : Nat)
    (h : occursAt p u k) : occursAt p (u ++ b) k := by
  have hlen := occursAt_length p u hp k h
  unfold occursAt at *
  rw [List.drop_append_eq_append_drop, List.take_append_eq_append_take]
  have h1 : k - u.length = 0 := by omega
  have h2 : p.length - (u.drop k).length = 0 := by
    simp [List.length_drop]; omega
  rw [h1, h2]
  simp [h]

theorem occursAt_of_append (p u b : List Char) (k : Nat)
    (h : occursAt p (u ++ b) k) (hk : k + p.length ≤ u.length) :
    occursAt p u k := by
  unfold occursAt at *
  rw [List.drop_append_eq_append_drop, List.take_append_eq_append_take] at h
  have h1 : k - u.length = 0 := by omega
  have h2 : p.length - (u.drop k).length = 0 := by
    simp [List.length_drop]; omega
  rw [h1, h2] at h
  simpa using h

theorem occursAt_shift (p u b : List Char) (k : Nat) :
    occursAt p (u ++ b) (u.length + k) ↔ occursAt p b k := by
  unfold occursAt
  rw [List.drop_append_eq_append_drop]
  have h1 : u.drop (u.length + k) = [] := List.drop_eq_nil_of_le (by omega)
  have h2 : u.length + k - u.length = k := by omega
  rw [h1, h2]
  simp

theorem firstIdx_append_some (p : List Char) (hp : p ≠ []) (u b : List Char) (i : Nat)
    (h : firstIdx p u = some i) : firstIdx p (u ++ b) = some i := by
  apply firstIdx_intro p hp
  · exact occursAt_append_left p hp u b i (firstIdx_some_occ p u i h)
  · intro k hk
    intro hocc
    have hbound := firstIdx_some_bound p u hp i h
    have : occursAt p u k := occursAt_of_append p u b k hocc (by omega)
    exact firstIdx_some_min p u i h k hk this

/-- Shifting the first occurrence over a left part that contains no
occurrence (not even a straddling one). -/
theorem firstIdx_prepend (p : List Char) (hp : p ≠ []) (a s : List Char)
    (hno : ∀ k, k < a.length → ¬ occursAt p (a ++ s) k) :
    firstIdx p (a ++ s) = (firstIdx p s).map (a.length + ·) := by
  cases h : firstIdx p s with
  | none =>
    simp only [Option.map_none']
    cases h2 : firstIdx p (a ++ s) with
    | none => rfl
    | some m =>
      exfalso
      have hocc := firstIdx_some_occ p (a ++ s) m h2
      by_cases hm : m < a.length
      · exact hno m hm hocc
      · have : occursAt p s (m - a.length) := by
          have := (occursAt_shift p a s (m - a.length)).mp
          apply this
          have : a.length + (m - a.length) = m := by omega
          rw [this]
          exact hocc
        exact firstIdx_none p hp s h (m - a.length) this
  | some i =>
    simp only [Option.map_some']
    apply firstIdx_intro p hp
    · exact (occursAt_shift p a s i).mpr (firstIdx_some_occ p s i h)
    · intro k hk
      by_cases hka : k < a.length
      · exact hno k hka
      · intro hocc
        have : occursAt p s (k - a.length) := by
          have heq : a.length + (k - a.length) = k := by omega
          exact (occursAt_shift p a s (k - a.length)).mp (by rw [heq]; exact hocc)
        exact firstIdx_some_min p s i h (k - a.length) (by omega) this

theorem firstIdx_short (p s : List Char) (hp : p ≠ []) (h : s.length < p.length) :
    firstIdx p s = none := by
  cases hfi : firstIdx p s with
  | none => rfl
  | some i =>
    have := firstIdx_some_bound p s hp i hfi
    have hplen : 0 < p.length := List.length_pos.mpr hp
    omega

theorem firstIdx_append_none (p : List Char) (hp : p ≠ []) (a s : List Char)
    (h : firstIdx p (a ++ s) = none) : firstIdx p s = none := by
  cases hfi : firstIdx p s with
  | none => rfl
  | some i =>
    exfalso
    have hocc := (occursAt_shift p a s i).mpr (firstIdx_some_occ p s i hfi)
    exact firstIdx_none p hp (a ++ s) h (a.length + i) hocc

/-- Dissecting an occurrence that straddles the boundary of an append. -/
theorem occursAt_straddle (p u v : List Char) (k : Nat)
    (hocc : occursAt p (u ++ v) k) (hk : k ≤ u.length) (hs : u.length < k + p.length) :
    p.take (u.length - k) = u.drop k ∧ p.drop (u.length - k) = v.take (p.length - (u.length - k)) := by
  unfold occursAt at hocc
  rw [List.drop_append_eq_append_drop] at hocc
  have h1 : k - u.length = 0 := by omega
  rw [h1, List.drop_zero] at hocc
  rw [List.take_append_eq_append_take] at hocc
  have hlen : (u.drop k).length = u.length - k := by simp [List.length_drop]
  have h2 : (u.drop k).take p.length = u.drop k := by
    apply List.take_of_length_le; omega
  rw [h2] at hocc
  constructor
  · have := congrArg (List.take (u.length - k)) hocc
    rw [List.take_append_eq_append_take] at this
    have h3 : (u.drop k).take (u.length - k) = u.drop k := by
      apply List.take_of_length_le; omega
    have h4 : u.length - k - (u.drop k).length = 0 := by omega
    rw [h3, h4] at this
    simpa using this.symm
  · have := congrArg (List.drop (u.length - k)) hocc
    rw [List.drop_append_eq_append_drop] at this
    have h3 : (u.drop k).drop (u.length - k) = [] := List.drop_eq_nil_of_le (by omega)
    have h4 : u.length - k - (u.drop k).length = 0 := by omega
    rw [h3, h4] at this
    simpa [List.length_take] using this.symm

/-- Length of the suffix of `buf` withheld as a potential partial start
marker: the first `i` in `1..6` with `buf.endswith("<think>"[:i])`
(the loop at lines 113-118 of `routes_chat.py`); at most one such `i`
exists, see `hold_match_unique`. -/
def holdLen (buf : List Char) : Nat :=
  ((List.range' 1 6).find?
    (fun i => decide (buf.drop (buf.length - i) = thinkOpen.take i))).getD 0

theorem hold_core : ∀ j, j < 8 → ∀ i, i < 8 → 1 ≤ i → i ≤ j →
    (thinkOpen.take j).drop (j - i) = thinkOpen.take i → i = j := by decide

theorem open_selfover : ∀ l, l < 7 → 1 ≤ l →
    thinkOpen ≠ thinkOpen.take l ++ thinkOpen.take (7 - l) := by decide

theorem close_selfover : ∀ l, l < 8 → 1 ≤ l →
    thinkClose ≠ thinkClose.take l ++ thinkClose.take (8 - l) := by decide

theorem close_take_ne_open_drop : ∀ k, k < 7 →
    thinkClose.take (7 - k) ≠ thinkOpen.drop k := by decide

theorem holdLen_le_six (buf : List Char) : holdLen buf ≤ 6 := by
  unfold holdLen
  cases hf : (List.range' 1 6).find?
      (fun i => decide (buf.drop (buf.length - i) = thinkOpen.take i)) with
  | none => simp
  | some j =>
    have hmem := List.mem_range'_1.mp (List.mem_of_find?_eq_some hf)
    simp only [Option.getD_some]
    omega

theorem holdLen_spec (buf : List Char) (h : holdLen buf ≠ 0) :
    1 ≤ holdLen buf ∧ holdLen buf ≤ 6 ∧
      buf.drop (buf.length - holdLen buf) = thinkOpen.take (holdLen buf) := by
  unfold holdLen at h ⊢
  cases hf : (List.range' 1 6).find?
      (fun i => decide (buf.drop (buf.length - i) = thinkOpen.take i)) with
  | none => rw [hf] at h; simp at h
  | some j =>
    have hmem := List.mem_range'_1.mp (List.mem_of_find?_eq_some hf)
    have hpj := List.find?_some hf
    simp only [decide_eq_true_eq] at hpj
    simp only [Option.getD_some]
    exact ⟨by omega, by omega, hpj⟩

theorem holdLen_zero (buf : List Char) (h : holdLen buf = 0) :
    ∀ i, 1 ≤ i → i ≤ 6 → buf.drop (buf.length - i) ≠ thinkOpen.take i := by
  unfold holdLen at h
  cases hf : (List.range' 1 6).find?
      (fun i => decide (buf.drop (buf.length - i) = thinkOpen.take i)) with
  | none =>
    intro i h1 h6
    have := List.find?_eq_none.mp hf i (List.mem_range'_1.mpr ⟨h1, by omega⟩)
    simpa using this
  | some j =>
    exfalso
    have hmem := List.mem_range'_1.mp (List.mem_of_find?_eq_some hf)
    rw [hf] at h
    simp only [Option.getD_some] at h
    omega

theorem hold_match_le (buf : List Char) (i j : Nat) (hi1 : 1 ≤ i) (hj6 : j ≤ 6) (hij : i ≤ j)
    (hmi : buf.drop (buf.length - i) = thinkOpen.take i)
    (hmj : buf.drop (buf.length - j) = thinkOpen.take j) : i = j := by
  have hjlen : j ≤ buf.length := by
    have := congrArg List.length hmj
    simp only [List.length_drop, List.length_take, thinkOpen_length] at this
    omega
  have hstep : (thinkOpen.take j).drop (j - i) = thinkOpen.take i := by
    rw [← hmj, ← hmi, List.drop_drop]
    congr 1
    omega
  exact hold_core j (by omega) i (by omega) hi1 hij hstep

theorem hold_match_unique (buf : List Char) (i j : Nat) (hi1 : 1 ≤ i) (hi6 : i ≤ 6)
    (hj1 : 1 ≤ j) (hj6 : j ≤ 6)
    (hmi : buf.drop (buf.length - i) = thinkOpen.take i)
    (hmj : buf.drop (buf.length - j) = thinkOpen.take j) : i = j := by
  rcases le_total i j with hij | hij
  · exact hold_match_le buf i j hi1 hj6 hij hmi hmj
  · exact (hold_match_le buf j i hj1 hi6 hij hmj hmi).symm

theorem holdLen_complete (buf : List Char) (i : Nat) (hi1 : 1 ≤ i) (hi6 : i ≤ 6)
    (hm : buf.drop (buf.length - i) = thinkOpen.take i) : holdLen buf = i := by
  rcases Nat.eq_zero_or_pos (holdLen buf) with h0 | hpos
  · exact absurd hm (holdLen_zero buf h0 i hi1 hi6)
  · have hs := holdLen_spec buf (by omega)
    exact hold_match_unique buf (holdLen buf) i hs.1 hs.2.1 hi1 hi6 hs.2.2 hm

theorem holdLen_le_length (buf : List Char) : holdLen buf ≤ buf.length := by
  rcases Nat.eq_zero_or_pos (holdLen buf) with h0 | hpos
  · omega
  · have hs := holdLen_spec buf (by omega)
    have := congrArg List.length hs.2.2
    simp only [List.length_drop, List.length_take, thinkOpen_length] at this
    omega

theorem holdLen_marker_take (h : Nat) (h1 : 1 ≤ h) (h6 : h ≤ 6) :
    holdLen (thinkOpen.take h) = h := by
  apply holdLen_complete _ h h1 h6
  have hlen : (thinkOpen.take h).length = h := by
    simp only [List.length_take, thinkOpen_length]
    omega
  rw [hlen]
  simp

/-- No occurrence of the end marker starts inside (or straddling out of) a
copy of the start marker. -/
theorem no_close_in_open (rest : List Char) (k : Nat) (hk : k < 7) :
    ¬ occursAt thinkClose (thinkOpen ++ rest) k := by
  intro hocc
  have hs := occursAt_straddle thinkClose thinkOpen rest k hocc
    (by rw [thinkOpen_length]; omega)
    (by rw [thinkOpen_length, thinkClose_length]; omega)
  have h1 := hs.1
  rw [thinkOpen_length] at h1
  exact close_take_ne_open_drop k hk h1

theorem firstIdx_close_openPrepend (rest : List Char) :
    firstIdx thinkClose (thinkOpen ++ rest) = (firstIdx thinkClose rest).map (7 + ·) := by
  have h := firstIdx_prepend thinkClose (by decide) thinkOpen rest
    (fun k hk => no_close_in_open rest k (by rw [thinkOpen_length] at hk; exact hk))
  rw [thinkOpen_length] at h
  exact h

/-- With no full occurrence of the start marker in `a`, an occurrence in
`a ++ O ++ x` cannot start inside `a` (the marker does not self-overlap). -/
theorem no_open_straddle (a x : List Char) (k : Nat)
    (hfi : firstIdx thinkOpen a = none) (hk : k < a.length) :
    ¬ occursAt thinkOpen (a ++ (thinkOpen ++ x)) k := by
  intro hocc
  by_cases hcase : k + 7 ≤ a.length
  · exact firstIdx_none thinkOpen (by decide) a hfi k
      (occursAt_of_append thinkOpen a _ k hocc (by rw [thinkOpen_length]; omega))
  · have hs := occursAt_straddle thinkOpen a (thinkOpen ++ x) k hocc (by omega)
      (by rw [thinkOpen_length]; omega)
    have hl1 : 1 ≤ a.length - k := by omega
    have hl6 : a.length - k ≤ 6 := by omega
    have htk : (thinkOpen ++ x).take (thinkOpen.length - (a.length - k)) =
        thinkOpen.take (7 - (a.length - k)) := by
      rw [List.take_append_eq_append_take, thinkOpen_length]
      have h0 : 7 - (a.length - k) - 7 = 0 := by omega
      rw [h0]
      simp
    have hfull : thinkOpen =
        thinkOpen.take (a.length - k) ++ thinkOpen.take (7 - (a.length - k)) := by
      conv_lhs => rw [← List.take_append_drop (a.length - k) thinkOpen]
      rw [hs.2, htk]
    exact open_selfover (a.length - k) (by omega) hl1 hfull

/-- With no full occurrence of the end marker in `m`, an occurrence in
`m ++ C ++ x` cannot start inside `m`. -/
theorem no_close_straddle (m x : List Char) (k : Nat)
    (hfi : firstIdx thinkClose m = none) (hk : k < m.length) :
    ¬ occursAt thinkClose (m ++ (thinkClose ++ x)) k := by
  intro hocc
  by_cases hcase : k + 8 ≤ m.length
  · exact firstIdx_none thinkClose (by decide) m hfi k
      (occursAt_of_append thinkClose m _ k hocc (by rw [thinkClose_length]; omega))
  · have hs := occursAt_straddle thinkClose m (thinkClose ++ x) k hocc (by omega)
      (by rw [thinkClose_length]; omega)
    have hl1 : 1 ≤ m.length - k := by omega
    have hl7 : m.length - k ≤ 7 := by omega
    have htk : (thinkClose ++ x).take (thinkClose.length - (m.length - k)) =
        thinkClose.take (8 - (m.length - k)) := by
      rw [List.take_append_eq_append_take, thinkClose_length]
      have h0 : 8 - (m.length - k) - 8 = 0 := by omega
      rw [h0]
      simp
    have hfull : thinkClose =
        thinkClose.take (m.length - k) ++ thinkClose.take (8 - (m.length - k)) := by
      conv_lhs => rw [← List.take_append_drop (m.length - k) thinkClose]
      rw [hs.2, htk]
    exact close_selfover (m.length - k) (by omega) hl1 hfull

/-- The state of `StreamingThinkFilter` (routes_chat.py, lines 39-42). -/
structure StreamingThinkFilter where
  buffer : List Char
  in_thinking : Bool
  strip_leading_ws : Bool
deriving DecidableEq, Repr

/-- The buffer-scanning loop shared by `StreamingThinkFilter.process` and
`_process_non_thinking`.  `runBuf true buf` scans for the end marker while
inside a thinking block (lines 66-82, and lines 96-109 after a start marker
was found in the same buffer); `runBuf false buf` is `_process_non_thinking`
(lines 86-123): emit up to a start marker, recurse behind a closed block,
and withhold a trailing proper prefix of the start marker. -/
def runBuf : (inTh : Bool) → (buf : List Char) → List Char × StreamingThinkFilter
  | true, buf =>
    match h : firstIdx thinkClose buf with
    | none => ([], ⟨buf, true, false⟩)
    | some j =>
      if ((buf.drop (j + 8)).dropWhile isWS) = [] then ([], ⟨[], false, true⟩)
      else runBuf false ((buf.drop (j + 8)).dropWhile isWS)
  | false, buf =>
    match h : firstIdx thinkOpen buf with
    | some i =>
      let r := runBuf true (buf.drop i)
      ((buf.take i) ++ r.1, r.2)
    | none =>
      (buf.take (buf.length - holdLen buf),
       ⟨buf.drop (buf.length - holdLen buf), false, false⟩)
termination_by inTh buf => (buf.length, cond inTh 0 1)
decreasing_by
  · have hb := firstIdx_some_bound thinkClose buf (by decide) j h
    rw [thinkClose_length] at hb
    have h1 : ((buf.drop (j + 8)).dropWhile isWS).length ≤ (buf.drop (j + 8)).length :=
      (List.dropWhile_sublist _).length_le
    have h2 : (buf.drop (j + 8)).length = buf.length - (j + 8) := by
      simp [List.length_drop]
    apply Prod.Lex.left
    omega
  · rcases Nat.lt_or_ge (buf.drop i).length buf.length with hlt | hge
    · exact Prod.Lex.left _ _ hlt
    · have heq : (buf.drop i).length = buf.length := by
        have := List.length_drop i buf
        omega
      rw [heq]
      exact Prod.Lex.right _ (by decide)

namespace StreamingThinkFilter

/-- `__init__` (lines 39-42): empty buffer, outside a thinking block. -/
def init : StreamingThinkFilter := ⟨[], false, false⟩

/-- `StreamingThinkFilter.process` (lines 44-123): append the token to the
buffer, apply the pending leading-whitespace strip (lines 56-63), then scan
the buffer (lines 66-84 via `runBuf`). -/
def process (f : StreamingThinkFilter) (token : List Char) : List Char × StreamingThinkFilter :=
  if f.strip_leading_ws then
    if ((f.buffer ++ token).dropWhile isWS) = [] then ([], ⟨[], f.in_thinking, true⟩)
    else runBuf f.in_thinking ((f.buffer ++ token).dropWhile isWS)
  else runBuf f.in_thinking (f.buffer ++ token)

/-- `StreamingThinkFilter.flush` (lines 125-140): discard an unclosed
thinking block, otherwise release the withheld buffer. -/
def flush (f : StreamingThinkFilter) : List Char × StreamingThinkFilter :=
  if f.in_thinking then ([], ⟨[], false, false⟩)
  else (f.buffer, ⟨[], f.in_thinking, false⟩)

/-- Feed a sequence of fragments through `process`, concatenating all
emitted output. -/
def runProcess (f : StreamingThinkFilter) : List (List Char) → List Char × StreamingThinkFilter
  | [] => ([], f)
  | t :: ts =>
    ((process f t).1 ++ (runProcess (process f t).2 ts).1, (runProcess (process f t).2 ts).2)

end StreamingThinkFilter

/-- Total output of a streamed run from a fresh filter: all `process`
outputs, then the `flush`. -/
def streamFilter (frags : List (List Char)) : List Char :=
  (StreamingThinkFilter.runProcess StreamingThinkFilter.init frags).1 ++
    (StreamingThinkFilter.flush
      (StreamingThinkFilter.runProcess StreamingThinkFilter.init frags).2).1

/-- `strip_thinking_tags` (lines 17-29): `_THINK_PATTERN.sub('', text)` with
`_THINK_PATTERN = re.compile(r'<think>.*?</think>\s*', re.DOTALL)`.  A match
starts at the leftmost `<think>` that is followed by a `</think>`, extends
lazily to the first such `</think>`, then greedily over whitespace; the
substitution continues scanning the remainder. -/
def strip_thinking_tags (s : List Char) : List Char :=
  match h : firstIdx thinkOpen s with
  | none => s
  | some i =>
    match h2 : firstIdx thinkClose (s.drop (i + 7)) with
    | none => s
    | some j => s.take i ++ strip_thinking_tags ((s.drop (i + 7 + (j + 8))).dropWhile isWS)
termination_by s.length
decreasing_by
  have hb := firstIdx_some_bound thinkOpen s (by decide) i h
  rw [thinkOpen_length] at hb
  have h1 : ((s.drop (i + 7 + (j + 8))).dropWhile isWS).length ≤
      (s.drop (i + 7 + (j + 8))).length := (List.dropWhile_sublist _).length_le
  have h2 : (s.drop (i + 7 + (j + 8))).length = s.length - (i + 7 + (j + 8)) := by
    simp [List.length_drop]
  omega

theorem runBuf_true_noClose (buf : List Char) (h : firstIdx thinkClose buf = none) :
    runBuf true buf = ([], ⟨buf, true, false⟩) := by
  unfold runBuf
  rw [h]

theorem runBuf_true_close_nil (buf : List Char) (j : Nat)
    (h : firstIdx thinkClose buf = some j)
    (h2 : (buf.drop (j + 8)).dropWhile isWS = []) :
    runBuf true buf = ([], ⟨[], false, true⟩) := by
  unfold runBuf
  split
  · rename_i heq
    rw [heq] at h
    cases h
  · rename_i j' heq
    rw [h] at heq
    cases heq
    rw [if_pos h2]

theorem runBuf_true_close (buf : List Char) (j : Nat)
    (h : firstIdx thinkClose buf = some j)
    (h2 : (buf.drop (j + 8)).dropWhile isWS ≠ []) :
    runBuf true buf = runBuf false ((buf.drop (j + 8)).dropWhile isWS) := by
  conv_lhs => unfold runBuf
  split
  · rename_i heq
    rw [heq] at h
    cases h
  · rename_i j' heq
    rw [h] at heq
    cases heq
    rw [if_neg h2]

theorem runBuf_false_open (buf : List Char) (i : Nat)
    (h : firstIdx thinkOpen buf = some i) :
    runBuf false buf =
      ((buf.take i) ++ (runBuf true (buf.drop i)).1, (runBuf true (buf.drop i)).2) := by
  conv_lhs => unfold runBuf
  split
  · rename_i i' heq
    rw [h] at heq
    cases heq
    rfl
  · rename_i heq
    rw [heq] at h
    cases h

theorem runBuf_false_noOpen (buf : List Char) (h : firstIdx thinkOpen buf = none) :
    runBuf false buf =
      (buf.take (buf.length - holdLen buf),
       ⟨buf.drop (buf.length - holdLen buf), false, false⟩) := by
  unfold runBuf
  split
  · rename_i i' heq
    rw [heq] at h
    cases h
  · rfl

theorem stt_noOpen (s : List Char) (h : firstIdx thinkOpen s = none) :
    strip_thinking_tags s = s := by
  unfold strip_thinking_tags
  split
  · rfl
  · rename_i i heq
    rw [heq] at h
    cases h

theorem stt_noClose (s : List Char) (i : Nat) (h : firstIdx thinkOpen s = some i)
    (h2 : firstIdx thinkClose (s.drop (i + 7)) = none) :
    strip_thinking_tags s = s := by
  unfold strip_thinking_tags
  split
  · rfl
  · rename_i i' heq
    rw [h] at heq
    cases heq
    split
    · rfl
    · rename_i j' heq2
      rw [h2] at heq2
      cases heq2

theorem stt_rec (s : List Char) (i j : Nat) (h : firstIdx thinkOpen s = some i)
    (h2 : firstIdx thinkClose (s.drop (i + 7)) = some j) :
    strip_thinking_tags s =
      s.take i ++ strip_thinking_tags ((s.drop (i + 7 + (j + 8))).dropWhile isWS) := by
  conv_lhs => unfold strip_thinking_tags
  split
  · rename_i heq
    rw [heq] at h
    cases h
  · rename_i i' heq
    rw [h] at heq
    cases heq
    split
    · rename_i heq2
      rw [heq2] at h2
      cases h2
    · rename_i j' heq2
      rw [h2] at heq2
      cases heq2
      rfl

theorem take_append_right_len (y z : List Char) (k : Nat) :
    (y ++ z).take (y.length + k) = y ++ z.take k := by
  rw [List.take_append_eq_append_take]
  have h1 : y.take (y.length + k) = y := List.take_of_length_le (by omega)
  have h2 : y.length + k - y.length = k := by omega
  rw [h1, h2]

theorem drop_append_right_len (y z : List Char) (k : Nat) :
    (y ++ z).drop (y.length + k) = z.drop k := by
  rw [List.drop_append_eq_append_drop]
  have h1 : y.drop (y.length + k) = [] := List.drop_eq_nil_of_le (by omega)
  have h2 : y.length + k - y.length = k := by omega
  rw [h1, h2, List.nil_append]

theorem drop_append_left_le (u b : List Char) (k : Nat) (hk : k ≤ u.length) :
    (u ++ b).drop k = u.drop k ++ b := by
  rw [List.drop_append_eq_append_drop]
  have h0 : k - u.length = 0 := by omega
  rw [h0, List.drop_zero]

theorem take_append_left_le (u b : List Char) (k : Nat) (hk : k ≤ u.length) :
    (u ++ b).take k = u.take k := by
  rw [List.take_append_eq_append_take]
  have h0 : k - u.length = 0 := by omega
  rw [h0, List.take_zero, List.append_nil]

/-- No start-marker occurrence can begin strictly before the withheld
partial-marker suffix of a buffer that contains no full start marker. -/
theorem no_open_before_hold (v b : List Char) (hO : firstIdx thinkOpen v = none) :
    ∀ k, k < v.length - holdLen v → ¬ occursAt thinkOpen (v ++ b) k := by
  intro k hk hocc
  by_cases hcase : k + 7 ≤ v.length
  · exact firstIdx_none thinkOpen (by decide) v hO k
      (occursAt_of_append thinkOpen v b k hocc (by rw [thinkOpen_length]; omega))
  · have hs := occursAt_straddle thinkOpen v b k hocc (by omega)
      (by rw [thinkOpen_length]; omega)
    have hl6 : v.length - k ≤ 6 := by omega
    have hl1 : 1 ≤ v.length - k := by omega
    have hmatch : v.drop (v.length - (v.length - k)) = thinkOpen.take (v.length - k) := by
      have hkk : v.length - (v.length - k) = k := by omega
      rw [hkk]
      exact hs.1.symm
    have := holdLen_complete v (v.length - k) hl1 hl6 hmatch
    omega

/-- Appending more input after the withheld partial-marker suffix gives the
same withheld length as appending it to the whole buffer. -/
theorem holdLen_append_hold (v b : List Char) (hO : firstIdx thinkOpen v = none) :
    holdLen (v ++ b) = holdLen (v.drop (v.length - holdLen v) ++ b) := by
  set h := holdLen v with hh
  set w := v.drop (v.length - h) with hw
  have hhn : h ≤ v.length := holdLen_le_length v
  have hwlen : w.length = h := by
    rw [hw, List.length_drop]
    omega
  have hsplit : v ++ b = v.take (v.length - h) ++ (w ++ b) := by
    rw [← List.append_assoc, List.take_append_drop]
  have hylen : (v.take (v.length - h)).length = v.length - h := by
    rw [List.length_take]
    omega
  have hsuffix : ∀ l, l ≤ h + b.length →
      (v ++ b).drop ((v ++ b).length - l) = (w ++ b).drop ((w ++ b).length - l) := by
    intro l hl
    rw [hsplit]
    have harith : (v.take (v.length - h) ++ (w ++ b)).length - l
        = (v.take (v.length - h)).length + ((w ++ b).length - l) := by
      simp only [List.length_append, hylen, hwlen]
      omega
    rw [harith, drop_append_right_len]
  have hlong : ∀ l, l ≤ 6 → h + b.length < l →
      (v ++ b).drop ((v ++ b).length - l) ≠ thinkOpen.take l := by
    intro l hl6 hlgt heq
    have hlN : l ≤ v.length + b.length := by
      have hc := congrArg List.length heq
      simp only [List.length_drop, List.length_take, thinkOpen_length,
        List.length_append] at hc
      omega
    have hl'1 : 1 ≤ l - b.length := by omega
    have hl'6 : l - b.length ≤ 6 := by omega
    have hl'n : l - b.length ≤ v.length := by omega
    have hdropeq : (v ++ b).drop ((v ++ b).length - l) = v.drop (v.length - (l - b.length)) ++ b := by
      have harith : (v ++ b).length - l = v.length - (l - b.length) := by
        simp only [List.length_append]
        omega
      rw [harith]
      exact drop_append_left_le v b _ (by omega)
    rw [hdropeq] at heq
    have hx : v.drop (v.length - (l - b.length)) = thinkOpen.take (l - b.length) := by
      have hc := congrArg (List.take (l - b.length)) heq
      rw [List.take_append_eq_append_take] at hc
      have hxlen : (v.drop (v.length - (l - b.length))).length = l - b.length := by
        rw [List.length_drop]
        omega
      rw [List.take_of_length_le (le_of_eq hxlen)] at hc
      rw [hxlen] at hc
      simp only [Nat.sub_self, List.take_zero, List.append_nil, List.take_take] at hc
      have hmin : min (l - b.length) l = l - b.length := by omega
      rw [hmin] at hc
      exact hc
    have := holdLen_complete v (l - b.length) hl'1 hl'6 hx
    omega
  rcases Nat.eq_zero_or_pos (holdLen (w ++ b)) with h2z | h2p
  · rw [h2z]
    rcases Nat.eq_zero_or_pos (holdLen (v ++ b)) with h3z | h3p
    · rw [h3z]
    · exfalso
      have hs3 := holdLen_spec (v ++ b) (by omega)
      by_cases hle : holdLen (v ++ b) ≤ h + b.length
      · have hsx := hsuffix (holdLen (v ++ b)) hle
        rw [hsx] at hs3
        exact holdLen_zero (w ++ b) h2z _ hs3.1 hs3.2.1 hs3.2.2
      · exact hlong _ hs3.2.1 (by omega) hs3.2.2
  · have hs2 := holdLen_spec (w ++ b) (by omega)
    apply holdLen_complete (v ++ b) _ hs2.1 hs2.2.1
    have hb2 : holdLen (w ++ b) ≤ h + b.length := by
      have hx := holdLen_le_length (w ++ b)
      rw [List.length_append, hwlen] at hx
      exact hx
    rw [hsuffix _ hb2]
    exact hs2.2.2

/-- First start-marker occurrence in `v ++ b` when `v` has none: it can only
start in the withheld suffix of `v` or in `b`. -/
theorem firstIdx_open_after_hold (v b : List Char) (hO : firstIdx thinkOpen v = none) :
    firstIdx thinkOpen (v ++ b) =
      (firstIdx thinkOpen (v.drop (v.length - holdLen v) ++ b)).map
        ((v.length - holdLen v) + ·) := by
  have hsplit : v ++ b = v.take (v.length - holdLen v) ++ (v.drop (v.length - holdLen v) ++ b) := by
    rw [← List.append_assoc, List.take_append_drop]
  have hylen : (v.take (v.length - holdLen v)).length = v.length - holdLen v := by
    rw [List.length_take]
    have := holdLen_le_length v
    omega
  have hno : ∀ k, k < (v.take (v.length - holdLen v)).length →
      ¬ occursAt thinkOpen
        (v.take (v.length - holdLen v) ++ (v.drop (v.length - holdLen v) ++ b)) k := by
    intro k hk
    rw [hylen] at hk
    rw [← hsplit]
    exact no_open_before_hold v b hO k hk
  rw [hsplit, firstIdx_prepend thinkOpen (by decide) _ _ hno, hylen]

open StreamingThinkFilter in
/-- Coalescing: scanning `v ++ b` in one go agrees (output and state) with
scanning `v` and then feeding `b` through `process`, in both modes. -/
theorem runBuf_append_aux : ∀ n : Nat, ∀ v b : List Char, v.length ≤ n →
    (runBuf true (v ++ b) =
      ((runBuf true v).1 ++ (process (runBuf true v).2 b).1,
       (process (runBuf true v).2 b).2)) ∧
    (runBuf false (v ++ b) =
      ((runBuf false v).1 ++ (process (runBuf false v).2 b).1,
       (process (runBuf false v).2 b).2)) := by
  intro n
  induction n using Nat.strong_induction_on with
  | _ n IH =>
  have htrue : ∀ v b : List Char, v.length ≤ n →
      runBuf true (v ++ b) =
        ((runBuf true v).1 ++ (process (runBuf true v).2 b).1,
         (process (runBuf true v).2 b).2) := by
    intro v b hv
    cases hC : firstIdx thinkClose v with
    | none =>
      rw [runBuf_true_noClose v hC]
      simp [process]
    | some j =>
      have hCb : firstIdx thinkClose (v ++ b) = some j :=
        firstIdx_append_some thinkClose (by decide) v b j hC
      have hjb := firstIdx_some_bound thinkClose v (by decide) j hC
      rw [thinkClose_length] at hjb
      have hdrop : (v ++ b).drop (j + 8) = v.drop (j + 8) ++ b :=
        drop_append_left_le v b (j + 8) (by omega)
      by_cases hrem : (v.drop (j + 8)).dropWhile isWS = []
      · have hcomb : ((v ++ b).drop (j + 8)).dropWhile isWS = b.dropWhile isWS := by
          rw [hdrop, List.dropWhile_append, hrem]
          simp
        rw [runBuf_true_close_nil v j hC hrem]
        by_cases hb : b.dropWhile isWS = []
        · rw [runBuf_true_close_nil (v ++ b) j hCb (by rw [hcomb]; exact hb)]
          simp [process, hb]
        · rw [runBuf_true_close (v ++ b) j hCb (by rw [hcomb]; exact hb), hcomb]
          simp [process, hb]
      · have hcomb : ((v ++ b).drop (j + 8)).dropWhile isWS =
            (v.drop (j + 8)).dropWhile isWS ++ b := by
          rw [hdrop, List.dropWhile_append]
          simp [hrem]
        have hcombne : ((v ++ b).drop (j + 8)).dropWhile isWS ≠ [] := by
          rw [hcomb]
          intro hcon
          exact hrem (List.append_eq_nil.mp hcon).1
        rw [runBuf_true_close v j hC hrem]
        rw [runBuf_true_close (v ++ b) j hCb hcombne, hcomb]
        have hlt : ((v.drop (j + 8)).dropWhile isWS).length < v.length := by
          have h1 : ((v.drop (j + 8)).dropWhile isWS).length ≤ (v.drop (j + 8)).length :=
            (List.dropWhile_sublist _).length_le
          rw [List.length_drop] at h1
          omega
        exact (IH ((v.drop (j + 8)).dropWhile isWS).length (by omega)
          ((v.drop (j + 8)).dropWhile isWS) b le_rfl).2
  intro v b hv
  refine ⟨htrue v b hv, ?_⟩
  cases hO : firstIdx thinkOpen v with
  | some i =>
    have hib := firstIdx_some_bound thinkOpen v (by decide) i hO
    rw [thinkOpen_length] at hib
    have hOb : firstIdx thinkOpen (v ++ b) = some i :=
      firstIdx_append_some thinkOpen (by decide) v b i hO
    rw [runBuf_false_open v i hO, runBuf_false_open (v ++ b) i hOb]
    have hdr : (v ++ b).drop i = v.drop i ++ b := drop_append_left_le v b i (by omega)
    have htk : (v ++ b).take i = v.take i := take_append_left_le v b i (by omega)
    rw [hdr, htk, htrue (v.drop i) b (by rw [List.length_drop]; omega)]
    simp [List.append_assoc]
  | none =>
    have hhn : holdLen v ≤ v.length := holdLen_le_length v
    have hwlen : (v.drop (v.length - holdLen v)).length = holdLen v := by
      rw [List.length_drop]
      omega
    have hylen : (v.take (v.length - holdLen v)).length = v.length - holdLen v := by
      rw [List.length_take]
      omega
    have hsplit : v ++ b =
        v.take (v.length - holdLen v) ++ (v.drop (v.length - holdLen v) ++ b) := by
      rw [← List.append_assoc, List.take_append_drop]
    rw [runBuf_false_noOpen v hO]
    have hproc : process (⟨v.drop (v.length - holdLen v), false, false⟩ : StreamingThinkFilter) b
        = runBuf false (v.drop (v.length - holdLen v) ++ b) := by
      simp [process]
    rw [hproc]
    cases hWO : firstIdx thinkOpen (v.drop (v.length - holdLen v) ++ b) with
    | none =>
      have hvbO : firstIdx thinkOpen (v ++ b) = none := by
        rw [firstIdx_open_after_hold v b hO, hWO]
        rfl
      rw [runBuf_false_noOpen (v ++ b) hvbO, runBuf_false_noOpen _ hWO]
      have hhold : holdLen (v ++ b) = holdLen (v.drop (v.length - holdLen v) ++ b) :=
        holdLen_append_hold v b hO
      have hh2 : holdLen (v.drop (v.length - holdLen v) ++ b) ≤
          (v.drop (v.length - holdLen v) ++ b).length :=
        holdLen_le_length _
      rw [List.length_append, hwlen] at hh2
      have harith : (v ++ b).length - holdLen (v ++ b) =
          (v.take (v.length - holdLen v)).length +
            ((v.drop (v.length - holdLen v) ++ b).length -
              holdLen (v.drop (v.length - holdLen v) ++ b)) := by
        rw [hhold, List.length_append, List.length_append, hwlen, hylen]
        omega
      have hOut : (v ++ b).take ((v ++ b).length - holdLen (v ++ b)) =
          v.take (v.length - holdLen v) ++
            (v.drop (v.length - holdLen v) ++ b).take
              ((v.drop (v.length - holdLen v) ++ b).length -
                holdLen (v.drop (v.length - holdLen v) ++ b)) := by
        rw [harith, hsplit, take_append_right_len]
      have hBuf : (v ++ b).drop ((v ++ b).length - holdLen (v ++ b)) =
          (v.drop (v.length - holdLen v) ++ b).drop
            ((v.drop (v.length - holdLen v) ++ b).length -
              holdLen (v.drop (v.length - holdLen v) ++ b)) := by
        rw [harith, hsplit, drop_append_right_len]
      rw [hOut, hBuf]
    | some i2 =>
      have hvbO : firstIdx thinkOpen (v ++ b) = some ((v.length - holdLen v) + i2) := by
        rw [firstIdx_open_after_hold v b hO, hWO]
        rfl
      rw [runBuf_false_open (v ++ b) _ hvbO, runBuf_false_open _ i2 hWO]
      have hdr : (v ++ b).drop ((v.length - holdLen v) + i2) =
          (v.drop (v.length - holdLen v) ++ b).drop i2 := by
        have h1 : ((v ++ b).drop (v.length - holdLen v)).drop i2 =
            (v.drop (v.length - holdLen v) ++ b).drop i2 := by
          rw [drop_append_left_le v b (v.length - holdLen v) (by omega)]
        rw [← h1, List.drop_drop]
      have htk : (v ++ b).take ((v.length - holdLen v) + i2) =
          v.take (v.length - holdLen v) ++ (v.drop (v.length - holdLen v) ++ b).take i2 := by
        rw [hsplit]
        rw [show (v.length - holdLen v) + i2 = (v.take (v.length - holdLen v)).length + i2 from
          by rw [hylen]]
        rw [take_append_right_len]
      rw [hdr, htk]
      try simp [List.append_assoc]

open StreamingThinkFilter in
theorem runBuf_true_append (v b : List Char) :
    runBuf true (v ++ b) =
      ((runBuf true v).1 ++ (process (runBuf true v).2 b).1,
       (process (runBuf true v).2 b).2) :=
  (runBuf_append_aux v.length v b le_rfl).1

open StreamingThinkFilter in
theorem runBuf_false_append (v b : List Char) :
    runBuf false (v ++ b) =
      ((runBuf false v).1 ++ (process (runBuf false v).2 b).1,
       (process (runBuf false v).2 b).2) :=
  (runBuf_append_aux v.length v b le_rfl).2

/-- Invariant of reachable filter states: a pending whitespace strip means an
empty buffer outside a thinking block; inside a thinking block the buffer has
no end marker yet; outside, the buffer is exactly a withheld proper prefix of
the start marker. -/
def Inv (f : StreamingThinkFilter) : Prop :=
  (f.strip_leading_ws = true → f.buffer = [] ∧ f.in_thinking = false) ∧
  (f.in_thinking = true → firstIdx thinkClose f.buffer = none ∧ f.strip_leading_ws = false) ∧
  (f.in_thinking = false → f.strip_leading_ws = false →
    firstIdx thinkOpen f.buffer = none ∧ holdLen f.buffer = f.buffer.length)

theorem occursAt_drop (p s : List Char) (k i : Nat) :
    occursAt p (s.drop k) i ↔ occursAt p s (k + i) := by
  unfold occursAt
  rw [List.drop_drop]

theorem firstIdx_none_drop (p : List Char) (hp : p ≠ []) (s : List Char) (k : Nat)
    (h : firstIdx p s = none) : firstIdx p (s.drop k) = none := by
  cases hfi : firstIdx p (s.drop k) with
  | none => rfl
  | some i =>
    exfalso
    have hocc := (occursAt_drop p s k i).mp (firstIdx_some_occ p _ i hfi)
    exact firstIdx_none p hp s h (k + i) hocc

open StreamingThinkFilter in
theorem process_eq_strip_nil (f : StreamingThinkFilter) (t : List Char)
    (hst : f.strip_leading_ws = true) (hw : (f.buffer ++ t).dropWhile isWS = []) :
    process f t = ([], ⟨[], f.in_thinking, true⟩) := by
  rw [process, if_pos hst, if_pos hw]

open StreamingThinkFilter in
theorem process_eq_strip (f : StreamingThinkFilter) (t : List Char)
    (hst : f.strip_leading_ws = true) (hw : (f.buffer ++ t).dropWhile isWS ≠ []) :
    process f t = runBuf f.in_thinking ((f.buffer ++ t).dropWhile isWS) := by
  rw [process, if_pos hst, if_neg hw]

open StreamingThinkFilter in
theorem process_eq_run (f : StreamingThinkFilter) (t : List Char)
    (hst : f.strip_leading_ws = false) :
    process f t = runBuf f.in_thinking (f.buffer ++ t) := by
  rw [process, if_neg (by rw [hst]; simp)]

/-- The withheld suffix is itself free of the start marker and fully held. -/
theorem hold_state_inv (buf : List Char) (hO : firstIdx thinkOpen buf = none) :
    firstIdx thinkOpen (buf.drop (buf.length - holdLen buf)) = none ∧
      holdLen (buf.drop (buf.length - holdLen buf)) =
        (buf.drop (buf.length - holdLen buf)).length := by
  refine ⟨firstIdx_none_drop thinkOpen (by decide) buf _ hO, ?_⟩
  rcases Nat.eq_zero_or_pos (holdLen buf) with h0 | hpos
  · have hnil : buf.drop (buf.length - holdLen buf) = [] := by
      rw [h0]
      exact List.drop_eq_nil_of_le (by omega)
    rw [hnil]
    decide
  · have hs := holdLen_spec buf (by omega)
    rw [hs.2.2, holdLen_marker_take (holdLen buf) hs.1 hs.2.1, List.length_take,
      thinkOpen_length]
    omega

theorem init_inv : Inv StreamingThinkFilter.init := by
  refine ⟨by simp [StreamingThinkFilter.init], by simp [StreamingThinkFilter.init], ?_⟩
  intro _ _
  exact ⟨by decide, by decide⟩

open StreamingThinkFilter in
theorem runBuf_inv : ∀ n : Nat, ∀ buf : List Char, buf.length ≤ n →
    Inv (runBuf true buf).2 ∧ Inv (runBuf false buf).2 := by
  intro n
  induction n using Nat.strong_induction_on with
  | _ n IH =>
  have htrue : ∀ buf : List Char, buf.length ≤ n → Inv (runBuf true buf).2 := by
    intro buf hn
    cases hC : firstIdx thinkClose buf with
    | none =>
      rw [runBuf_true_noClose buf hC]
      exact ⟨by simp, fun _ => ⟨hC, rfl⟩, by simp⟩
    | some j =>
      have hjb := firstIdx_some_bound thinkClose buf (by decide) j hC
      rw [thinkClose_length] at hjb
      by_cases hrem : (buf.drop (j + 8)).dropWhile isWS = []
      · rw [runBuf_true_close_nil buf j hC hrem]
        exact ⟨fun _ => ⟨rfl, rfl⟩, by simp, by simp⟩
      · rw [runBuf_true_close buf j hC hrem]
        have hlt : ((buf.drop (j + 8)).dropWhile isWS).length < buf.length := by
          have hle : ((buf.drop (j + 8)).dropWhile isWS).length ≤ (buf.drop (j + 8)).length :=
            (List.dropWhile_sublist _).length_le
          rw [List.length_drop] at hle
          omega
        exact (IH _ (by omega) _ le_rfl).2
  intro buf hn
  refine ⟨htrue buf hn, ?_⟩
  cases hO : firstIdx thinkOpen buf with
  | some i =>
    rw [runBuf_false_open buf i hO]
    exact htrue (buf.drop i) (by rw [List.length_drop]; omega)
  | none =>
    rw [runBuf_false_noOpen buf hO]
    exact ⟨by simp, by simp, fun _ _ => hold_state_inv buf hO⟩

open StreamingThinkFilter in
theorem process_inv (f : StreamingThinkFilter) (t : List Char) (hf : Inv f) :
    Inv (process f t).2 := by
  obtain ⟨buf, th, st⟩ := f
  obtain ⟨h1, h2, h3⟩ := hf
  cases st
  · rw [process_eq_run _ t rfl]
    cases th
    · exact (runBuf_inv (buf ++ t).length (buf ++ t) le_rfl).2
    · exact (runBuf_inv (buf ++ t).length (buf ++ t) le_rfl).1
  · obtain ⟨hb, hth⟩ := h1 rfl
    subst hth
    simp only at hb
    subst hb
    by_cases hw : (([] : List Char) ++ t).dropWhile isWS = []
    · rw [process_eq_strip_nil _ t rfl hw]
      exact ⟨fun _ => ⟨rfl, rfl⟩, by simp, by simp⟩
    · rw [process_eq_strip _ t rfl hw]
      exact (runBuf_inv ((([] : List Char) ++ t).dropWhile isWS).length _ le_rfl).2

open StreamingThinkFilter in
theorem process_nil (f : StreamingThinkFilter) (hf : Inv f) : process f [] = ([], f) := by
  obtain ⟨buf, th, st⟩ := f
  obtain ⟨h1, h2, h3⟩ := hf
  cases st
  · rw [process_eq_run _ [] rfl]
    simp only [List.append_nil]
    cases th
    · obtain ⟨hO, hh⟩ := h3 rfl rfl
      simp only at hO hh
      rw [runBuf_false_noOpen buf hO, hh]
      simp
    · obtain ⟨hC, _⟩ := h2 rfl
      simp only at hC
      rw [runBuf_true_noClose buf hC]
  · obtain ⟨hb, hth⟩ := h1 rfl
    subst hth
    simp only at hb
    subst hb
    rw [process_eq_strip_nil _ [] rfl (by simp)]

open StreamingThinkFilter in
/-- `process` is a monoid morphism on reachable states: feeding `t1 ++ t2`
equals feeding `t1` then `t2`, with concatenated outputs. -/
theorem process_append (f : StreamingThinkFilter) (t1 t2 : List Char) (hf : Inv f) :
    process f (t1 ++ t2) =
      ((process f t1).1 ++ (process (process f t1).2 t2).1,
       (process (process f t1).2 t2).2) := by
  obtain ⟨buf, th, st⟩ := f
  obtain ⟨h1, h2, h3⟩ := hf
  cases st
  · rw [process_eq_run _ (t1 ++ t2) rfl, process_eq_run _ t1 rfl]
    simp only
    rw [← List.append_assoc]
    cases th
    · exact (runBuf_append_aux (buf ++ t1).length (buf ++ t1) t2 le_rfl).2
    · exact (runBuf_append_aux (buf ++ t1).length (buf ++ t1) t2 le_rfl).1
  · obtain ⟨hb, hth⟩ := h1 rfl
    subst hth
    simp only at hb
    subst hb
    by_cases hw1 : (([] : List Char) ++ t1).dropWhile isWS = []
    · have hw1' : t1.dropWhile isWS = [] := by simpa using hw1
      rw [process_eq_strip_nil _ t1 rfl hw1]
      by_cases hw2 : (([] : List Char) ++ t2).dropWhile isWS = []
      · have h12 : (([] : List Char) ++ (t1 ++ t2)).dropWhile isWS = [] := by
          simp only [List.nil_append] at hw2 ⊢
          rw [List.dropWhile_append, hw1']
          simpa using hw2
        rw [process_eq_strip_nil _ (t1 ++ t2) rfl h12,
          process_eq_strip_nil _ t2 rfl hw2]
        rfl
      · have hw2' : t2.dropWhile isWS ≠ [] := by simpa using hw2
        have h12 : (([] : List Char) ++ (t1 ++ t2)).dropWhile isWS = t2.dropWhile isWS := by
          simp only [List.nil_append]
          rw [List.dropWhile_append, hw1']
          simp
        rw [process_eq_strip _ (t1 ++ t2) rfl (by rw [h12]; exact hw2'),
          process_eq_strip _ t2 rfl hw2, h12]
        simp
    · have hw1' : t1.dropWhile isWS ≠ [] := by simpa using hw1
      have h12 : (([] : List Char) ++ (t1 ++ t2)).dropWhile isWS =
          t1.dropWhile isWS ++ t2 := by
        simp only [List.nil_append]
        rw [List.dropWhile_append]
        simp [hw1']
      have h12ne : (([] : List Char) ++ (t1 ++ t2)).dropWhile isWS ≠ [] := by
        rw [h12]
        simp [hw1']
      rw [process_eq_strip _ (t1 ++ t2) rfl h12ne, process_eq_strip _ t1 rfl hw1, h12]
      simp only [List.nil_append]
      exact (runBuf_append_aux (t1.dropWhile isWS).length (t1.dropWhile isWS) t2 le_rfl).2

open StreamingThinkFilter in
/-- Feeding a fragment sequence equals feeding its concatenation in one call,
from any reachable state. -/
theorem runProcess_flatten (frags : List (List Char)) : ∀ f : StreamingThinkFilter, Inv f →
    runProcess f frags = process f frags.flatten := by
  induction frags with
  | nil =>
    intro f hf
    rw [List.flatten_nil, process_nil f hf]
    rfl
  | cons t ts ih =>
    intro f hf
    rw [List.flatten_cons]
    rw [process_append f t ts.flatten hf]
    simp only [runProcess]
    rw [ih (process f t).2 (process_inv f t hf)]

/-- A one-call scan of the whole input that does not end inside a thinking
block produces, together with its withheld buffer, exactly the one-shot
`strip_thinking_tags` result. -/
theorem runBuf_false_strip : ∀ n : Nat, ∀ s : List Char, s.length ≤ n →
    (runBuf false s).2.in_thinking = false →
    (runBuf false s).1 ++ (runBuf false s).2.buffer = strip_thinking_tags s := by
  intro n
  induction n using Nat.strong_induction_on with
  | _ n IH =>
  intro s hn hth
  cases hO : firstIdx thinkOpen s with
  | none =>
    rw [runBuf_false_noOpen s hO, stt_noOpen s hO]
    simp [List.take_append_drop]
  | some i =>
    have hib := firstIdx_some_bound thinkOpen s (by decide) i hO
    rw [thinkOpen_length] at hib
    have hsplit : s.drop i = thinkOpen ++ s.drop (i + 7) := by
      have hocc := firstIdx_some_occ thinkOpen s i hO
      unfold occursAt at hocc
      rw [thinkOpen_length] at hocc
      conv_lhs => rw [← List.take_append_drop 7 (List.drop i s)]
      rw [hocc, List.drop_drop]
    have hshift : firstIdx thinkClose (s.drop i) =
        (firstIdx thinkClose (s.drop (i + 7))).map (7 + ·) := by
      rw [hsplit]
      exact firstIdx_close_openPrepend _
    rw [runBuf_false_open s i hO] at hth ⊢
    simp only at hth ⊢
    cases hC : firstIdx thinkClose (s.drop (i + 7)) with
    | none =>
      have hCi : firstIdx thinkClose (s.drop i) = none := by
        rw [hshift, hC]
        rfl
      rw [runBuf_true_noClose _ hCi] at hth
      simp at hth
    | some j =>
      have hCi : firstIdx thinkClose (s.drop i) = some (7 + j) := by
        rw [hshift, hC]
        rfl
      have hjb := firstIdx_some_bound thinkClose (s.drop (i + 7)) (by decide) j hC
      rw [thinkClose_length, List.length_drop] at hjb
      have hremeq : (s.drop i).drop (7 + j + 8) = s.drop (i + 7 + (j + 8)) := by
        rw [List.drop_drop]
        congr 1
        omega
      by_cases hrem : ((s.drop i).drop (7 + j + 8)).dropWhile isWS = []
      · rw [runBuf_true_close_nil _ (7 + j) hCi hrem] at hth ⊢
        rw [stt_rec s i j hO hC, ← hremeq, hrem]
        have hnil : strip_thinking_tags [] = [] := stt_noOpen [] (by decide)
        rw [hnil]
        simp
      · rw [runBuf_true_close _ (7 + j) hCi hrem] at hth ⊢
        rw [stt_rec s i j hO hC, ← hremeq]
        have hlt : (((s.drop i).drop (7 + j + 8)).dropWhile isWS).length < s.length := by
          have hle : (((s.drop i).drop (7 + j + 8)).dropWhile isWS).length ≤
              ((s.drop i).drop (7 + j + 8)).length := (List.dropWhile_sublist _).length_le
          rw [List.length_drop, List.length_drop] at hle
          omega
        have hrec := IH _ (by omega) (((s.drop i).drop (7 + j + 8)).dropWhile isWS) le_rfl hth
        rw [List.append_assoc, hrec]

/-- Fuel-indexed restatement of `runBuf`, used to evaluate concrete runs by
kernel reduction; `runBufFuel_adequate` shows it agrees with `runBuf` for
sufficient fuel. -/
def runBufFuel : Nat → Bool → List Char → List Char × StreamingThinkFilter
  | 0, inTh, buf => ([], ⟨buf, inTh, false⟩)
  | fuel + 1, true, buf =>
    match firstIdx thinkClose buf with
    | none => ([], ⟨buf, true, false⟩)
    | some j =>
      if ((buf.drop (j + 8)).dropWhile isWS) = [] then ([], ⟨[], false, true⟩)
      else runBufFuel fuel false ((buf.drop (j + 8)).dropWhile isWS)
  | fuel + 1, false, buf =>
    match firstIdx thinkOpen buf with
    | some i =>
      ((buf.take i) ++ (runBufFuel fuel true (buf.drop i)).1,
       (runBufFuel fuel true (buf.drop i)).2)
    | none =>
      (buf.take (buf.length - holdLen buf),
       ⟨buf.drop (buf.length - holdLen buf), false, false⟩)

theorem runBufFuel_adequate : ∀ fuel : Nat, ∀ inTh : Bool, ∀ buf : List Char,
    2 * buf.length + (cond inTh 1 2) ≤ fuel → runBufFuel fuel inTh buf = runBuf inTh buf := by
  intro fuel
  induction fuel with
  | zero =>
    intro inTh buf h
    cases inTh <;> simp [cond] at h
  | succ fuel ih =>
    intro inTh buf h
    cases inTh
    · cases hO : firstIdx thinkOpen buf with
      | some i =>
        have hib := firstIdx_some_bound thinkOpen buf (by decide) i hO
        rw [thinkOpen_length] at hib
        rw [runBuf_false_open buf i hO]
        simp only [runBufFuel]
        rw [hO]
        simp only []
        rw [ih true (buf.drop i) (by rw [List.length_drop]; simp [cond] at h ⊢; omega)]
      | none =>
        rw [runBuf_false_noOpen buf hO]
        simp only [runBufFuel]
        rw [hO]
    · cases hC : firstIdx thinkClose buf with
      | none =>
        rw [runBuf_true_noClose buf hC]
        simp only [runBufFuel]
        rw [hC]
      | some j =>
        have hjb := firstIdx_some_bound thinkClose buf (by decide) j hC
        rw [thinkClose_length] at hjb
        simp only [runBufFuel]
        rw [hC]
        simp only []
        by_cases hrem : (buf.drop (j + 8)).dropWhile isWS = []
        · rw [if_pos hrem, runBuf_true_close_nil buf j hC hrem]
        · rw [if_neg hrem, runBuf_true_close buf j hC hrem]
          apply ih false
          have hle : ((buf.drop (j + 8)).dropWhile isWS).length ≤ (buf.drop (j + 8)).length :=
            (List.dropWhile_sublist _).length_le
          rw [List.length_drop] at hle
          simp [cond] at h ⊢
          omega

/-- Fuel-indexed restatement of `strip_thinking_tags` for kernel evaluation. -/
def sttFuel : Nat → List Char → List Char
  | 0, s => s
  | fuel + 1, s =>
    match firstIdx thinkOpen s with
    | none => s
    | some i =>
      match firstIdx thinkClose (s.drop (i + 7)) with
      | none => s
      | some j => s.take i ++ sttFuel fuel ((s.drop (i + 7 + (j + 8))).dropWhile isWS)

theorem sttFuel_adequate : ∀ fuel : Nat, ∀ s : List Char, s.length ≤ fuel →
    sttFuel fuel s = strip_thinking_tags s := by
  intro fuel
  induction fuel with
  | zero =>
    intro s h
    have : s = [] := List.eq_nil_of_length_eq_zero (by omega)
    subst this
    rw [stt_noOpen [] (by decide)]
    rfl
  | succ fuel ih =>
    intro s h
    cases hO : firstIdx thinkOpen s with
    | none =>
      rw [stt_noOpen s hO]
      simp only [sttFuel]
      rw [hO]
    | some i =>
      have hib := firstIdx_some_bound thinkOpen s (by decide) i hO
      rw [thinkOpen_length] at hib
      cases hC : firstIdx thinkClose (s.drop (i + 7)) with
      | none =>
        rw [stt_noClose s i hO hC]
        simp only [sttFuel]
        rw [hO]
        simp only []
        rw [hC]
      | some j =>
        have hjb := firstIdx_some_bound thinkClose (s.drop (i + 7)) (by decide) j hC
        rw [thinkClose_length, List.length_drop] at hjb
        rw [stt_rec s i j hO hC]
        simp only [sttFuel]
        rw [hO]
        simp only []
        rw [hC]
        simp only []
        rw [ih ((s.drop (i + 7 + (j + 8))).dropWhile isWS) ?hlen]
        case hlen =>
          have hle : ((s.drop (i + 7 + (j + 8))).dropWhile isWS).length ≤
              (s.drop (i + 7 + (j + 8))).length := (List.dropWhile_sublist _).length_le
          rw [List.length_drop] at hle
          omega

open StreamingThinkFilter in
theorem process_init (s : List Char) : process init s = runBuf false s := by
  rw [process_eq_run init s rfl]
  rfl

open StreamingThinkFilter in
theorem runProcess_init_flatten (frags : List (List Char)) :
    runProcess init frags = runBuf false frags.flatten := by
  rw [runProcess_flatten frags init init_inv, process_init]

open StreamingThinkFilter in
theorem streamFilter_by_flatten (frags : List (List Char)) :
    streamFilter frags =
      (runBuf false frags.flatten).1 ++ (flush (runBuf false frags.flatten).2).1 := by
  unfold streamFilter
  rw [runProcess_init_flatten]

open StreamingThinkFilter in
/-- A streamed run that does not end inside a thinking block computes
exactly the one-shot filter of the concatenated input. -/
theorem streamFilter_eq_strip (frags : List (List Char))
    (hth : (runProcess init frags).2.in_thinking = false) :
    streamFilter frags = strip_thinking_tags frags.flatten := by
  rw [runProcess_init_flatten] at hth
  rw [streamFilter_by_flatten]
  rw [flush, if_neg (by rw [hth]; simp)]
  exact runBuf_false_strip frags.flatten.length frags.flatten le_rfl hth

theorem streamFilter_eval (frags : List (List Char)) :
    streamFilter frags =
      (runBufFuel (2 * frags.flatten.length + 2) false frags.flatten).1 ++
        (StreamingThinkFilter.flush
          (runBufFuel (2 * frags.flatten.length + 2) false frags.flatten).2).1 := by
  rw [streamFilter_by_flatten,
    runBufFuel_adequate (2 * frags.flatten.length + 2) false frags.flatten le_rfl]

theorem stt_eval (s : List Char) : strip_thinking_tags s = sttFuel s.length s :=
  (sttFuel_adequate s.length s le_rfl).symm

open StreamingThinkFilter in
theorem runProcess_state_eval (frags : List (List Char)) :
    (runProcess init frags).2 =
      (runBufFuel (2 * frags.flatten.length + 2) false frags.flatten).2 := by
  rw [runProcess_init_flatten,
    runBufFuel_adequate (2 * frags.flatten.length + 2) false frags.flatten le_rfl]

/-- C1: the claim as stated is false (see `c1_counterexample`); amended form:
for every input and every partition of it into fragments, if the streaming
run does not end inside an unterminated `<think>` region, then feeding the
fragments one by one to a fresh `StreamingThinkFilter` via `process`,
concatenating the outputs and appending `flush`, yields byte for byte the
one-shot `strip_thinking_tags` of the whole input. -/
theorem c1_streaming_matches_oneshot (frags : List (List Char))
    (hth : (StreamingThinkFilter.runProcess StreamingThinkFilter.init frags).2.in_thinking
      = false) :
    streamFilter frags = strip_thinking_tags frags.flatten :=
  streamFilter_eq_strip frags hth

/-- C1 counterexample: on the single-fragment input "before<think>junk",
whose marked region never closes, the streaming filter emits exactly
"before" (the unterminated region is discarded at flush) while the one-shot
`strip_thinking_tags` returns the input unchanged (the regex requires a
closing marker), so the two filters disagree byte for byte. -/
theorem c1_counterexample :
    streamFilter ["before<think>junk".toList] = "before".toList ∧
    strip_thinking_tags ("before<think>junk".toList) = "before<think>junk".toList ∧
    streamFilter ["before<think>junk".toList] ≠
      strip_thinking_tags ("before<think>junk".toList) := by
  have hA : streamFilter ["before<think>junk".toList] = "before".toList := by
    rw [streamFilter_eval]
    decide
  have hB : strip_thinking_tags ("before<think>junk".toList) = "before<think>junk".toList := by
    rw [stt_eval]
    decide
  exact ⟨hA, hB, by rw [hA, hB]; decide⟩

/-- C1 witness: a concrete instance of the amended equivalence, on an input
with one closed region split across fragments. -/
theorem c1_witness :
    (StreamingThinkFilter.runProcess StreamingThinkFilter.init
      ["ab<thi".toList, "nk>x</think> cd".toList]).2.in_thinking = false ∧
    streamFilter ["ab<thi".toList, "nk>x</think> cd".toList] =
      strip_thinking_tags (["ab<thi".toList, "nk>x</think> cd".toList].flatten) := by
  have hth : (StreamingThinkFilter.runProcess StreamingThinkFilter.init
      ["ab<thi".toList, "nk>x</think> cd".toList]).2.in_thinking = false := by
    rw [runProcess_state_eval]
    decide
  exact ⟨hth, c1_streaming_matches_oneshot _ hth⟩

/-- C8: for any fragmentation of "before" ++ "<think>" ++ continuation where
the continuation never contains the end marker, the concatenated streamed
outputs plus flush equal exactly "before": the unterminated marked region is
fully suppressed and the withheld buffer is discarded at flush. -/
theorem c8_unterminated_region (frags : List (List Char)) (cont : List Char)
    (hC : firstIdx thinkClose cont = none)
    (hjoin : frags.flatten = "before<think>".toList ++ cont) :
    streamFilter frags = "before".toList := by
  rw [streamFilter_by_flatten, hjoin]
  have hpre : ("before<think>".toList).length = 13 := by decide
  have hO : firstIdx thinkOpen ("before<think>".toList ++ cont) = some 6 := by
    apply firstIdx_intro thinkOpen (by decide)
    · unfold occursAt
      rw [drop_append_left_le _ _ 6 (by rw [hpre]; omega),
        show ("before<think>".toList).drop 6 = thinkOpen from by decide, thinkOpen_length,
        take_append_left_le thinkOpen cont 7 (by decide)]
      decide
    · intro k hk hocc
      have hfix : occursAt thinkOpen ("before<think>".toList) k :=
        occursAt_of_append _ _ _ k hocc (by rw [thinkOpen_length, hpre]; omega)
      interval_cases k <;> exact absurd hfix (by decide)
  rw [runBuf_false_open _ 6 hO]
  have hdrop6 : ("before<think>".toList ++ cont).drop 6 = thinkOpen ++ cont := by
    rw [drop_append_left_le _ _ 6 (by rw [hpre]; omega),
      show ("before<think>".toList).drop 6 = thinkOpen from by decide]
  rw [hdrop6]
  have hCnone : firstIdx thinkClose (thinkOpen ++ cont) = none := by
    rw [firstIdx_close_openPrepend cont, hC]
    rfl
  rw [runBuf_true_noClose _ hCnone]
  have htake : ("before<think>".toList ++ cont).take 6 = "before".toList := by
    rw [take_append_left_le _ _ 6 (by rw [hpre]; omega)]
    decide
  rw [htake]
  simp [StreamingThinkFilter.flush]

/-- C8 witness: the single-fragment instance with continuation "junk". -/
theorem c8_witness :
    firstIdx thinkClose ("junk".toList) = none ∧
    ["before<think>junk".toList].flatten = "before<think>".toList ++ "junk".toList ∧
    streamFilter ["before<think>junk".toList] = "before".toList :=
  ⟨by decide, by decide,
    c8_unterminated_region ["before<think>junk".toList] "junk".toList (by decide) (by decide)⟩

/-- C9: filtering "<think>x</think>   Hello" yields "Hello" (whitespace after
a closing marker removed) and filtering "Hello   <think>x</think>world"
yields "Hello   world" (whitespace before a region preserved), for the
one-shot filter and for the streaming filter under any fragmentation. -/
theorem c9_whitespace_normalization (frags : List (List Char)) :
    (frags.flatten = "<think>x</think>   Hello".toList →
      streamFilter frags = "Hello".toList ∧
      strip_thinking_tags ("<think>x</think>   Hello".toList) = "Hello".toList) ∧
    (frags.flatten = "Hello   <think>x</think>world".toList →
      streamFilter frags = "Hello   world".toList ∧
      strip_thinking_tags ("Hello   <think>x</think>world".toList) = "Hello   world".toList) := by
  constructor
  · intro hj
    refine ⟨?_, by rw [stt_eval]; decide⟩
    rw [streamFilter_eval, hj]
    decide
  · intro hj
    refine ⟨?_, by rw [stt_eval]; decide⟩
    rw [streamFilter_eval, hj]
    decide

/-- C9 witness: both inputs delivered as single fragments. -/
theorem c9_witness :
    ([("<think>x</think>   Hello".toList)].flatten = "<think>x</think>   Hello".toList ∧
      streamFilter [("<think>x</think>   Hello".toList)] = "Hello".toList) ∧
    ([("Hello   <think>x</think>world".toList)].flatten
        = "Hello   <think>x</think>world".toList ∧
      streamFilter [("Hello   <think>x</think>world".toList)] = "Hello   world".toList) := by
  constructor
  · exact ⟨by decide,
      ((c9_whitespace_normalization [("<think>x</think>   Hello".toList)]).1 (by decide)).1⟩
  · exact ⟨by decide,
      ((c9_whitespace_normalization [("Hello   <think>x</think>world".toList)]).2 (by decide)).1⟩

theorem noClose_noSlash (s : List Char) (h : ∀ ch ∈ s, ch ≠ '/') :
    firstIdx thinkClose s = none := by
  cases hfi : firstIdx thinkClose s with
  | none => rfl
  | some k =>
    exfalso
    have hocc := firstIdx_some_occ thinkClose s k hfi
    unfold occursAt at hocc
    have hmem : '/' ∈ (s.drop k).take thinkClose.length := by
      rw [hocc]
      decide
    exact h '/' (List.drop_subset k s (List.take_subset _ _ hmem)) rfl

theorem noSlash_open_as (n : Nat) : ∀ ch ∈ thinkOpen ++ List.replicate n 'a', ch ≠ '/' := by
  intro ch hch
  rcases List.mem_append.mp hch with h1 | h1
  · rw [show thinkOpen = ['<', 't', 'h', 'i', 'n', 'k', '>'] from by decide] at h1
    fin_cases h1 <;> decide
  · rw [List.eq_of_mem_replicate h1]
    decide

open StreamingThinkFilter in
theorem process_in_thinking_grow (buf t : List Char)
    (h : ∀ ch ∈ buf ++ t, ch ≠ '/') :
    process ⟨buf, true, false⟩ t = ([], ⟨buf ++ t, true, false⟩) := by
  rw [process_eq_run _ t rfl]
  exact runBuf_true_noClose _ (noClose_noSlash _ h)

open StreamingThinkFilter in
theorem runProcess_grow : ∀ (n : Nat) (buf : List Char), (∀ ch ∈ buf, ch ≠ '/') →
    runProcess ⟨buf, true, false⟩ (List.replicate n ['a']) =
      ([], ⟨buf ++ List.replicate n 'a', true, false⟩) := by
  intro n
  induction n with
  | zero =>
    intro buf h
    simp [runProcess]
  | succ n ih =>
    intro buf h
    rw [List.replicate_succ]
    simp only [runProcess]
    have hmem : ∀ ch ∈ buf ++ ['a'], ch ≠ '/' := by
      intro ch hch
      rcases List.mem_append.mp hch with h1 | h1
      · exact h ch h1
      · simp at h1
        subst h1
        decide
    rw [process_in_thinking_grow buf ['a'] hmem, ih (buf ++ ['a']) hmem]
    simp [List.replicate_succ]

open StreamingThinkFilter in
/-- C7 counterexample: no constant `c` bounds the pending buffer length by
`c` plus the length of the most recent fragment: after the fragment
"<think>" followed by `c + 1` one-character fragments, the buffer retains
the whole marked region, of length `c + 8 > c + 1`. -/
theorem c7_counterexample :
    ¬ ∃ c : Nat, ∀ (pre : List (List Char)) (t : List Char),
      (process (runProcess init pre).2 t).2.buffer.length ≤ c + t.length := by
  rintro ⟨c, hc⟩
  have h0 : process init ("<think>".toList) = ([], ⟨thinkOpen, true, false⟩) := by
    rw [process_init,
      ← runBufFuel_adequate (2 * ("<think>".toList).length + 2) false _ le_rfl]
    decide
  have hrun : runProcess init ("<think>".toList :: List.replicate c ['a']) =
      ([], ⟨thinkOpen ++ List.replicate c 'a', true, false⟩) := by
    simp only [runProcess]
    rw [h0, runProcess_grow c thinkOpen (by
      intro ch hch
      rw [show thinkOpen = ['<', 't', 'h', 'i', 'n', 'k', '>'] from by decide] at hch
      fin_cases hch <;> decide)]
    simp
  have hlast := hc ("<think>".toList :: List.replicate c ['a']) ['a']
  rw [hrun] at hlast
  rw [process_in_thinking_grow _ ['a'] (by
    intro ch hch
    rw [List.append_assoc] at hch
    have : (List.replicate c 'a') ++ ['a'] = List.replicate (c + 1) 'a' := by
      simp [List.replicate_succ']
    rw [this] at hch
    exact noSlash_open_as (c + 1) ch hch)] at hlast
  simp only [List.length_append, List.length_replicate, thinkOpen_length,
    List.length_cons, List.length_nil] at hlast
  omega

theorem runBuf_buffer_bound : ∀ n : Nat, ∀ mode : Bool, ∀ buf : List Char, buf.length ≤ n →
    (runBuf mode buf).2.in_thinking = false → (runBuf mode buf).2.buffer.length ≤ 6 := by
  intro n
  induction n using Nat.strong_induction_on with
  | _ n IH =>
  have htrue : ∀ buf : List Char, buf.length ≤ n →
      (runBuf true buf).2.in_thinking = false → (runBuf true buf).2.buffer.length ≤ 6 := by
    intro buf hn hth
    cases hC : firstIdx thinkClose buf with
    | none =>
      rw [runBuf_true_noClose buf hC] at hth
      simp at hth
    | some j =>
      have hjb := firstIdx_some_bound thinkClose buf (by decide) j hC
      rw [thinkClose_length] at hjb
      by_cases hrem : (buf.drop (j + 8)).dropWhile isWS = []
      · rw [runBuf_true_close_nil buf j hC hrem]
        simp
      · rw [runBuf_true_close buf j hC hrem] at hth ⊢
        have hlt : ((buf.drop (j + 8)).dropWhile isWS).length < buf.length := by
          have hle : ((buf.drop (j + 8)).dropWhile isWS).length ≤ (buf.drop (j + 8)).length :=
            (List.dropWhile_sublist _).length_le
          rw [List.length_drop] at hle
          omega
        exact (IH _ (by omega) false _ le_rfl) hth
  intro mode buf hn hth
  cases mode
  · cases hO : firstIdx thinkOpen buf with
    | some i =>
      rw [runBuf_false_open buf i hO] at hth ⊢
      exact htrue (buf.drop i) (by rw [List.length_drop]; omega) hth
    | none =>
      rw [runBuf_false_noOpen buf hO]
      simp only [List.length_drop]
      have := holdLen_le_six buf
      have := holdLen_le_length buf
      omega
  · exact htrue buf hn hth

open StreamingThinkFilter in
/-- C7 amended: the claimed constant bound fails while inside a marked region
(see `c7_counterexample`, the buffer retains the consumed region content,
which is never emitted and is dropped at flush); what holds is: after any
`process` call whose resulting state is outside a thinking block, the pending
buffer holds at most 6 characters (a withheld proper prefix of the start
marker). -/
theorem c7_buffer_bounded_outside (f : StreamingThinkFilter) (t : List Char)
    (hth : (process f t).2.in_thinking = false) :
    (process f t).2.buffer.length ≤ 6 := by
  obtain ⟨buf, th, st⟩ := f
  cases st
  · rw [process_eq_run _ t rfl] at hth ⊢
    exact runBuf_buffer_bound _ th _ le_rfl hth
  · by_cases hw : (((⟨buf, th, true⟩ : StreamingThinkFilter).buffer ++ t).dropWhile isWS) = []
    · rw [process_eq_strip_nil _ t rfl hw]
      simp
    · rw [process_eq_strip _ t rfl hw] at hth ⊢
      exact runBuf_buffer_bound _ th _ le_rfl hth

/-- C7 witness for the amended bound: after "ab<th" the filter is outside a
thinking block and withholds the three characters "<th". -/
theorem c7_witness :
    (StreamingThinkFilter.process StreamingThinkFilter.init
      ("ab<th".toList)).2.in_thinking = false ∧
    (StreamingThinkFilter.process StreamingThinkFilter.init
      ("ab<th".toList)).2.buffer.length ≤ 6 := by
  have hth : (StreamingThinkFilter.process StreamingThinkFilter.init
      ("ab<th".toList)).2.in_thinking = false := by
    rw [process_init,
      ← runBufFuel_adequate (2 * ("ab<th".toList).length + 2) false _ le_rfl]
    decide
  exact ⟨hth, c7_buffer_bounded_outside StreamingThinkFilter.init ("ab<th".toList) hth⟩

/-- A string assembled from outside-region segments and well-formed regions:
`p0 ++ <think> ++ m1 ++ </think> ++ p1 ++ <think> ++ m2 ++ ...`. -/
def assembleRegions : List Char → List (List Char × List Char) → List Char
  | p, [] => p
  | p, (m, q) :: rest =>
    p ++ (thinkOpen ++ (m ++ (thinkClose ++ assembleRegions q rest)))

/-- The outside-region text: the segments between/around regions, each
segment that follows a region stripped of its leading whitespace. -/
def outsideText : List Char → List (List Char × List Char) → List Char
  | p, [] => p
  | p, (_, q) :: rest => p ++ outsideText (q.dropWhile isWS) rest

theorem occursAt_self (p x : List Char) : occursAt p (p ++ x) 0 := by
  unfold occursAt
  rw [List.drop_zero, List.take_left]

theorem fiO_assembled (p x : List Char) (hp : firstIdx thinkOpen p = none) :
    firstIdx thinkOpen (p ++ (thinkOpen ++ x)) = some p.length := by
  apply firstIdx_intro thinkOpen (by decide)
  · have h := (occursAt_shift thinkOpen p (thinkOpen ++ x) 0).mpr
      (occursAt_self thinkOpen x)
    simpa using h
  · exact fun k hk => no_open_straddle p x k hp hk

theorem fiC_mC (m x : List Char) (hm : firstIdx thinkClose m = none) :
    firstIdx thinkClose (m ++ (thinkClose ++ x)) = some m.length := by
  apply firstIdx_intro thinkClose (by decide)
  · have h := (occursAt_shift thinkClose m (thinkClose ++ x) 0).mpr
      (occursAt_self thinkClose x)
    simpa using h
  · exact fun k hk => no_close_straddle m x k hm hk

theorem fiC_after_open (m x : List Char) (hm : firstIdx thinkClose m = none) :
    firstIdx thinkClose (thinkOpen ++ (m ++ (thinkClose ++ x))) = some (7 + m.length) := by
  rw [firstIdx_close_openPrepend, fiC_mC m x hm]
  rfl

theorem dropWhile_open_append (x : List Char) :
    (thinkOpen ++ x).dropWhile isWS = thinkOpen ++ x := by
  have h : thinkOpen ++ x = '<' :: ("think>".toList ++ x) := by
    rw [show thinkOpen = '<' :: "think>".toList from by decide]
    rfl
  rw [h, List.dropWhile_cons, if_neg (by decide)]

theorem drop_open_append (x : List Char) (k : Nat) :
    (thinkOpen ++ x).drop (7 + k) = x.drop k := by
  rw [show (7 : Nat) + k = thinkOpen.length + k from by rw [thinkOpen_length]]
  exact drop_append_right_len thinkOpen x k

theorem firstIdx_none_dropWhile (pat : List Char) (hp : pat ≠ []) (s : List Char)
    (h : firstIdx pat s = none) : firstIdx pat (s.dropWhile isWS) = none := by
  apply firstIdx_append_none pat hp (s.takeWhile isWS)
  rw [List.takeWhile_append_dropWhile]
  exact h

theorem dropWhile_assembled (q : List Char) (rest : List (List Char × List Char)) :
    (assembleRegions q rest).dropWhile isWS = assembleRegions (q.dropWhile isWS) rest := by
  cases rest with
  | nil => rfl
  | cons mq rest =>
    obtain ⟨m, q2⟩ := mq
    simp only [assembleRegions]
    rw [List.dropWhile_append]
    by_cases hq : q.dropWhile isWS = []
    · rw [hq, dropWhile_open_append]
      simp
    · simp [hq]

theorem drop_assembled_region (p m tail : List Char) :
    (p ++ (thinkOpen ++ (m ++ (thinkClose ++ tail)))).drop (p.length + 7 + (m.length + 8))
      = tail := by
  rw [show p.length + 7 + (m.length + 8) = p.length + (7 + (m.length + 8)) from by omega]
  rw [drop_append_right_len, drop_open_append, drop_append_right_len]
  rw [show (8 : Nat) = thinkClose.length from by rw [thinkClose_length]]
  exact List.drop_left thinkClose tail

/-- One-shot filtering of an assembled input yields exactly its
outside-region text. -/
theorem stt_assembled : ∀ (regs : List (List Char × List Char)) (p : List Char),
    firstIdx thinkOpen p = none →
    (∀ mq ∈ regs, firstIdx thinkClose mq.1 = none ∧ firstIdx thinkOpen mq.2 = none) →
    strip_thinking_tags (assembleRegions p regs) = outsideText p regs := by
  intro regs
  induction regs with
  | nil =>
    intro p hp _
    simp only [assembleRegions, outsideText]
    exact stt_noOpen p hp
  | cons mq rest ih =>
    obtain ⟨m, q⟩ := mq
    intro p hp hregs
    have hm : firstIdx thinkClose m = none := (hregs (m, q) (by simp)).1
    have hq : firstIdx thinkOpen q = none := (hregs (m, q) (by simp)).2
    simp only [assembleRegions, outsideText]
    have hO := fiO_assembled p (m ++ (thinkClose ++ assembleRegions q rest)) hp
    have hdropP : (p ++ (thinkOpen ++ (m ++ (thinkClose ++ assembleRegions q rest)))).drop
        (p.length + 7) = m ++ (thinkClose ++ assembleRegions q rest) := by
      rw [drop_append_right_len]
      rw [show (7 : Nat) = thinkOpen.length from by rw [thinkOpen_length]]
      exact List.drop_left thinkOpen _
    have hC2 : firstIdx thinkClose
        ((p ++ (thinkOpen ++ (m ++ (thinkClose ++ assembleRegions q rest)))).drop
          (p.length + 7)) = some m.length := by
      rw [hdropP]
      exact fiC_mC m _ hm
    rw [stt_rec _ p.length m.length hO hC2, List.take_left, drop_assembled_region,
      dropWhile_assembled]
    rw [ih (q.dropWhile isWS) (firstIdx_none_dropWhile thinkOpen (by decide) q hq)
      (fun mq hmq => hregs mq (by simp [hmq]))]

/-- A streamed run over an assembled input never ends inside a region. -/
theorem runBuf_assembled : ∀ (regs : List (List Char × List Char)) (p : List Char),
    firstIdx thinkOpen p = none →
    (∀ mq ∈ regs, firstIdx thinkClose mq.1 = none ∧ firstIdx thinkOpen mq.2 = none) →
    (runBuf false (assembleRegions p regs)).2.in_thinking = false := by
  intro regs
  induction regs with
  | nil =>
    intro p hp _
    simp only [assembleRegions]
    rw [runBuf_false_noOpen p hp]
  | cons mq rest ih =>
    obtain ⟨m, q⟩ := mq
    intro p hp hregs
    have hm : firstIdx thinkClose m = none := (hregs (m, q) (by simp)).1
    have hq : firstIdx thinkOpen q = none := (hregs (m, q) (by simp)).2
    simp only [assembleRegions]
    have hO := fiO_assembled p (m ++ (thinkClose ++ assembleRegions q rest)) hp
    rw [runBuf_false_open _ p.length hO]
    have hdropP : (p ++ (thinkOpen ++ (m ++ (thinkClose ++ assembleRegions q rest)))).drop
        p.length = thinkOpen ++ (m ++ (thinkClose ++ assembleRegions q rest)) :=
      List.drop_left p _
    rw [hdropP]
    have hC := fiC_after_open m (assembleRegions q rest) hm
    have hdropC : (thinkOpen ++ (m ++ (thinkClose ++ assembleRegions q rest))).drop
        (7 + m.length + 8) = assembleRegions q rest := by
      rw [show 7 + m.length + 8 = 7 + (m.length + 8) from by omega, drop_open_append,
        drop_append_right_len]
      rw [show (8 : Nat) = thinkClose.length from by rw [thinkClose_length]]
      exact List.drop_left thinkClose _
    by_cases hrem : ((thinkOpen ++ (m ++ (thinkClose ++ assembleRegions q rest))).drop
        (7 + m.length + 8)).dropWhile isWS = []
    · rw [runBuf_true_close_nil _ (7 + m.length) hC hrem]
    · rw [runBuf_true_close _ (7 + m.length) hC hrem, hdropC, dropWhile_assembled]
      exact ih (q.dropWhile isWS) (firstIdx_none_dropWhile thinkOpen (by decide) q hq)
        (fun mq hmq => hregs mq (by simp [hmq]))

open StreamingThinkFilter in
/-- C2: the claim as stated is false (see `c2_counterexample`); amended form:
for any input decomposed into N well-formed regions (outside segments free of
the start marker, region bodies free of the end marker), the output of the
one-shot filter — and of the streaming filter under any fragmentation — is
exactly the concatenation of the outside-region segments with the one-time
post-region whitespace strip; in particular no character strictly between a
start marker and its matching end marker is ever emitted.  Absence of marker
strings in the output does not hold in general, since removing a region can
juxtapose outside text into a fresh marker occurrence. -/
theorem c2_output_is_outside_text (p : List Char) (regs : List (List Char × List Char))
    (hp : firstIdx thinkOpen p = none)
    (hregs : ∀ mq ∈ regs, firstIdx thinkClose mq.1 = none ∧ firstIdx thinkOpen mq.2 = none) :
    strip_thinking_tags (assembleRegions p regs) = outsideText p regs ∧
    ∀ frags : List (List Char), frags.flatten = assembleRegions p regs →
      streamFilter frags = outsideText p regs := by
  refine ⟨stt_assembled regs p hp hregs, ?_⟩
  intro frags hj
  have hth : (runProcess init frags).2.in_thinking = false := by
    rw [runProcess_init_flatten, hj]
    exact runBuf_assembled regs p hp hregs
  rw [streamFilter_eq_strip frags hth, hj]
  exact stt_assembled regs p hp hregs

/-- C2 counterexample: the input "a<th<think>m</think>ink>b" decomposes into
exactly one well-formed region with body "m", yet both the one-shot and the
streaming filter output "a<think>b", which contains an occurrence of the
start-marker string "<think>" (at index 1) — the claimed zero marker
occurrences fail. -/
theorem c2_counterexample :
    "a<th<think>m</think>ink>b".toList =
      assembleRegions ("a<th".toList) [("m".toList, "ink>b".toList)] ∧
    firstIdx thinkOpen ("a<th".toList) = none ∧
    firstIdx thinkClose ("m".toList) = none ∧
    firstIdx thinkOpen ("ink>b".toList) = none ∧
    strip_thinking_tags ("a<th<think>m</think>ink>b".toList) = "a<think>b".toList ∧
    streamFilter ["a<th<think>m</think>ink>b".toList] = "a<think>b".toList ∧
    firstIdx thinkOpen ("a<think>b".toList) = some 1 := by
  refine ⟨by decide, by decide, by decide, by decide, ?_, ?_, by decide⟩
  · rw [stt_eval]
    decide
  · rw [streamFilter_eval]
    decide

/-- C2 witness: a one-region decomposition where the amended statement
applies, for both filters. -/
theorem c2_witness :
    firstIdx thinkOpen ("a ".toList) = none ∧
    (∀ mq ∈ [("m".toList, " b".toList)],
      firstIdx thinkClose mq.1 = none ∧ firstIdx thinkOpen mq.2 = none) ∧
    strip_thinking_tags (assembleRegions ("a ".toList) [("m".toList, " b".toList)]) =
      outsideText ("a ".toList) [("m".toList, " b".toList)] ∧
    streamFilter [assembleRegions ("a ".toList) [("m".toList, " b".toList)]] =
      outsideText ("a ".toList) [("m".toList, " b".toList)] := by
  have h1 : firstIdx thinkOpen ("a ".toList) = none := by decide
  have h2 : ∀ mq ∈ [("m".toList, " b".toList)],
      firstIdx thinkClose mq.1 = none ∧ firstIdx thinkOpen mq.2 = none := by decide
  have hmain := c2_output_is_outside_text ("a ".toList) [("m".toList, " b".toList)] h1 h2
  exact ⟨h1, h2, hmain.1, hmain.2 _ (by simp)⟩

/-!
### Orchestration model (`routes_chat.py` endpoints, `memory.py` store)

The generation backends (LangChain agent and chain) are external
collaborators, abstracted by their observable outputs: a non-streaming call
yields `Except String (List Char)` (exception, or the extracted text); a
streaming call yields the list of content chunks delivered before either
normal completion or an exception (`Option String`).  The only history
mutations in `routes_chat.py` are `add_user_message` immediately followed by
`add_ai_message` on the cached history; they are modelled by `commitPair`
on a session-indexed store.
-/

inductive Role
  | user
  | assistant
deriving DecidableEq, Repr

structure Turn where
  role : Role
  content : List Char
deriving DecidableEq, Repr

/-- The in-memory `_session_cache` of `memory.py`, observed through reads: an
absent session reads as a fresh empty history. -/
def Store : Type := String → List Turn

/-- `get_session_history` (memory.py lines 13-27): get-or-create; creating an
empty history is observationally the default empty read. -/
def get_session_history (st : Store) (sid : String) : List Turn := st sid

/-- `history.add_user_message(req.input)` directly followed by
`history.add_ai_message(text)`. -/
def commitPair (st : Store) (sid : String) (userText aiText : List Char) : Store :=
  fun s =>
    if s = sid then st sid ++ [⟨Role.user, userText⟩, ⟨Role.assistant, aiText⟩] else st s

/-- Python `not text or not text.strip()`: empty or all-whitespace. -/
def isBlank (s : List Char) : Bool := s.all isWS

structure ChatRequest where
  session_id : String
  input : List Char

/-- The MCP-agent branch of `chat` (routes_chat.py lines 157-203): extract
the text, strip thinking tags, validate non-blank, and only then append both
turns; an exception or the empty-after-strip `ValueError` makes the attempt
fail with the history untouched and falls through to the chain. -/
def mcpChatAttempt (agentOut : Except String (List Char)) (st : Store) (req : ChatRequest) :
    Except String (List Char) × Store :=
  match agentOut with
  | .error e => (.error e, st)
  | .ok raw =>
    if isBlank (strip_thinking_tags raw) then (.error "Agent returned empty response", st)
    else (.ok (strip_thinking_tags raw),
      commitPair st req.session_id req.input (strip_thinking_tags raw))

/-- The fallback chain branch of `chat` (lines 205-232). -/
def fallbackChat (chainOut : Except String (List Char)) (st : Store) (req : ChatRequest) :
    Except String (List Char) × Store :=
  match chainOut with
  | .error e => (.error e, st)
  | .ok raw =>
    if isBlank (strip_thinking_tags raw) then
      (.error "Chain returned empty response after stripping thinking blocks", st)
    else (.ok (strip_thinking_tags raw),
      commitPair st req.session_id req.input (strip_thinking_tags raw))

/-- `chat` (lines 145-235): try the MCP agent when enabled, fall back to the
plain chain on any failure of that attempt; an uncaught failure becomes an
HTTP 500, modelled as the error result. -/
def chat (useMcp : Bool) (agentOut chainOut : Except String (List Char))
    (st : Store) (req : ChatRequest) : Except String (List Char) × Store :=
  if useMcp then
    match mcpChatAttempt agentOut st req with
    | (.ok text, st') => (.ok text, st')
    | (.error _, st') => fallbackChat chainOut st' req
  else fallbackChat chainOut st req

inductive SSEEvent
  | token (data : List Char)
  | done (data : String)
  | error (data : String)
deriving DecidableEq, Repr

open StreamingThinkFilter in
/-- The per-chunk filtering loop of `chat_stream`: a token event for each
nonempty filtered fragment. -/
def streamTokens (f : StreamingThinkFilter) :
    List (List Char) → List SSEEvent × StreamingThinkFilter
  | [] => ([], f)
  | c :: cs =>
    ((if (process f c).1 = [] then [] else [SSEEvent.token (process f c).1]) ++
        (streamTokens (process f c).2 cs).1,
      (streamTokens (process f c).2 cs).2)

open StreamingThinkFilter in
/-- Token events of one completed backend stream through a fresh filter,
including the flushed remainder (lines 269-305 / 342-355). -/
def streamEvents (chunks : List (List Char)) : List SSEEvent :=
  (streamTokens init chunks).1 ++
    (if (flush (streamTokens init chunks).2).1 = [] then []
     else [SSEEvent.token (flush (streamTokens init chunks).2).1])

/-- The `emitted` flag: set exactly when some token event was yielded. -/
def streamEmitted (chunks : List (List Char)) : Bool :=
  !(streamEvents chunks).isEmpty

open StreamingThinkFilter in
/-- `full_response_content`: the raw chunks plus the flushed remainder, as
accumulated by the code. -/
def fullContent (chunks : List (List Char)) : List Char :=
  chunks.flatten ++ (flush (streamTokens init chunks).2).1

/-- The MCP branch of the `chat_stream` generator (lines 251-320).  Events
already yielded are kept even when the attempt fails; `some st'` is a
successful commit, `none` a failure that falls through to the chain. -/
def mcpStreamAttempt (agentChunks : List (List Char)) (agentErr : Option String)
    (st : Store) (req : ChatRequest) : List SSEEvent × Option Store :=
  match agentErr with
  | some _ => ((streamTokens StreamingThinkFilter.init agentChunks).1, none)
  | none =>
    if !streamEmitted agentChunks ||
        isBlank (strip_thinking_tags (fullContent agentChunks)) then
      (streamEvents agentChunks, none)
    else
      (streamEvents agentChunks,
       some (commitPair st req.session_id req.input
        (strip_thinking_tags (fullContent agentChunks))))

/-- The fallback chain part of the `chat_stream` generator (lines 325-367). -/
def chainStreamRun (chainChunks : List (List Char)) (chainErr : Option String)
    (st : Store) (req : ChatRequest) : List SSEEvent × Except String Store :=
  match chainErr with
  | some e => ((streamTokens StreamingThinkFilter.init chainChunks).1, .error e)
  | none =>
    if !streamEmitted chainChunks ||
        isBlank (strip_thinking_tags (fullContent chainChunks)) then
      (streamEvents chainChunks,
       .error "Chain produced no tokens after stripping thinking blocks")
    else
      (streamEvents chainChunks,
       .ok (commitPair st req.session_id req.input
        (strip_thinking_tags (fullContent chainChunks))))

/-- `chat_stream` (lines 238-373): the SSE generator; the outer `except`
turns any uncaught failure into an error event followed by the terminal
done event. -/
def chat_stream (useMcp : Bool) (agentChunks : List (List Char)) (agentErr : Option String)
    (chainChunks : List (List Char)) (chainErr : Option String)
    (st : Store) (req : ChatRequest) : List SSEEvent × Store :=
  if useMcp then
    match mcpStreamAttempt agentChunks agentErr st req with
    | (evs, some st') => (evs ++ [SSEEvent.done req.session_id], st')
    | (evs, none) =>
      match chainStreamRun chainChunks chainErr st req with
      | (evs2, .ok st') => (evs ++ (evs2 ++ [SSEEvent.done req.session_id]), st')
      | (evs2, .error e) =>
        (evs ++ (evs2 ++ [SSEEvent.error e, SSEEvent.done req.session_id]), st)
  else
    match chainStreamRun chainChunks chainErr st req with
    | (evs2, .ok st') => (evs2 ++ [SSEEvent.done req.session_id], st')
    | (evs2, .error e) => (evs2 ++ [SSEEvent.error e, SSEEvent.done req.session_id], st)

theorem commitPair_same (st : Store) (sid : String) (u a : List Char) :
    commitPair st sid u a sid = st sid ++ [⟨Role.user, u⟩, ⟨Role.assistant, a⟩] := by
  unfold commitPair
  rw [if_pos rfl]

theorem commitPair_frame (st : Store) (sid : String) (u a : List Char) (s' : String)
    (hs : s' ≠ sid) : commitPair st sid u a s' = st s' := by
  unfold commitPair
  rw [if_neg hs]

theorem fallbackChat_shape (chainOut : Except String (List Char)) (st : Store)
    (req : ChatRequest) :
    (∃ raw, isBlank (strip_thinking_tags raw) = false ∧
      fallbackChat chainOut st req =
        (.ok (strip_thinking_tags raw),
         commitPair st req.session_id req.input (strip_thinking_tags raw))) ∨
    (∃ e, fallbackChat chainOut st req = (.error e, st)) := by
  cases chainOut with
  | error e => exact Or.inr ⟨e, rfl⟩
  | ok raw =>
    by_cases hb : isBlank (strip_thinking_tags raw) = true
    · refine Or.inr ⟨"Chain returned empty response after stripping thinking blocks", ?_⟩
      simp only [fallbackChat]
      rw [if_pos hb]
    · refine Or.inl ⟨raw, by simpa using hb, ?_⟩
      simp only [fallbackChat]
      rw [if_neg hb]

theorem mcpChatAttempt_shape (agentOut : Except String (List Char)) (st : Store)
    (req : ChatRequest) :
    (∃ raw, isBlank (strip_thinking_tags raw) = false ∧
      mcpChatAttempt agentOut st req =
        (.ok (strip_thinking_tags raw),
         commitPair st req.session_id req.input (strip_thinking_tags raw))) ∨
    (∃ e, mcpChatAttempt agentOut st req = (.error e, st)) := by
  cases agentOut with
  | error e => exact Or.inr ⟨e, rfl⟩
  | ok raw =>
    by_cases hb : isBlank (strip_thinking_tags raw) = true
    · refine Or.inr ⟨"Agent returned empty response", ?_⟩
      simp only [mcpChatAttempt]
      rw [if_pos hb]
    · refine Or.inl ⟨raw, by simpa using hb, ?_⟩
      simp only [mcpChatAttempt]
      rw [if_neg hb]

theorem chat_shape (useMcp : Bool) (agentOut chainOut : Except String (List Char))
    (st : Store) (req : ChatRequest) :
    (∃ raw, isBlank (strip_thinking_tags raw) = false ∧
      chat useMcp agentOut chainOut st req =
        (.ok (strip_thinking_tags raw),
         commitPair st req.session_id req.input (strip_thinking_tags raw))) ∨
    (∃ e, chat useMcp agentOut chainOut st req = (.error e, st)) := by
  cases useMcp
  · have hch : chat false agentOut chainOut st req = fallbackChat chainOut st req := by
      simp [chat]
    rw [hch]
    exact fallbackChat_shape chainOut st req
  · rcases mcpChatAttempt_shape agentOut st req with ⟨raw, hb, heq⟩ | ⟨e, heq⟩
    · exact Or.inl ⟨raw, hb, by simp [chat, heq]⟩
    · have hch : chat true agentOut chainOut st req = fallbackChat chainOut st req := by
        simp [chat, heq]
      rw [hch]
      exact fallbackChat_shape chainOut st req

theorem chainStreamRun_shape (cc : List (List Char)) (ce : Option String) (st : Store)
    (req : ChatRequest) :
    (∃ raw, isBlank (strip_thinking_tags raw) = false ∧
      (chainStreamRun cc ce st req).2 =
        .ok (commitPair st req.session_id req.input (strip_thinking_tags raw))) ∨
    (∃ e, (chainStreamRun cc ce st req).2 = .error e) := by
  cases ce with
  | some e => exact Or.inr ⟨e, rfl⟩
  | none =>
    by_cases hb : (!streamEmitted cc || isBlank (strip_thinking_tags (fullContent cc))) = true
    · refine Or.inr ⟨"Chain produced no tokens after stripping thinking blocks", ?_⟩
      simp only [chainStreamRun]
      rw [if_pos hb]
    · have hb' : isBlank (strip_thinking_tags (fullContent cc)) = false := by
        rcases Bool.or_eq_false_iff.mp (Bool.of_not_eq_true hb) with ⟨_, h2⟩
        exact h2
      refine Or.inl ⟨fullContent cc, hb', ?_⟩
      simp only [chainStreamRun]
      rw [if_neg hb]

theorem mcpStreamAttempt_shape (ac : List (List Char)) (ae : Option String) (st : Store)
    (req : ChatRequest) :
    (∃ raw, isBlank (strip_thinking_tags raw) = false ∧
      (mcpStreamAttempt ac ae st req).2 =
        some (commitPair st req.session_id req.input (strip_thinking_tags raw))) ∨
    (mcpStreamAttempt ac ae st req).2 = none := by
  cases ae with
  | some e => exact Or.inr rfl
  | none =>
    by_cases hb : (!streamEmitted ac || isBlank (strip_thinking_tags (fullContent ac))) = true
    · refine Or.inr ?_
      simp only [mcpStreamAttempt]
      rw [if_pos hb]
    · have hb' : isBlank (strip_thinking_tags (fullContent ac)) = false := by
        rcases Bool.or_eq_false_iff.mp (Bool.of_not_eq_true hb) with ⟨_, h2⟩
        exact h2
      refine Or.inl ⟨fullContent ac, hb', ?_⟩
      simp only [mcpStreamAttempt]
      rw [if_neg hb]

theorem chat_stream_shape (useMcp : Bool) (ac : List (List Char)) (ae : Option String)
    (cc : List (List Char)) (ce : Option String) (st : Store) (req : ChatRequest) :
    (∃ raw, isBlank (strip_thinking_tags raw) = false ∧
      (chat_stream useMcp ac ae cc ce st req).2 =
        commitPair st req.session_id req.input (strip_thinking_tags raw)) ∨
    (chat_stream useMcp ac ae cc ce st req).2 = st := by
  cases useMcp
  · cases hcs : chainStreamRun cc ce st req with
    | mk evs2 r =>
      have hsh := chainStreamRun_shape cc ce st req
      rw [hcs] at hsh
      cases r with
      | ok st' =>
        rcases hsh with ⟨raw, hb, heq⟩ | ⟨e, heq⟩
        · simp only at heq
          cases heq
          exact Or.inl ⟨raw, hb, by simp [chat_stream, hcs]⟩
        · simp at heq
      | error e => exact Or.inr (by simp [chat_stream, hcs])
  · cases hma : mcpStreamAttempt ac ae st req with
    | mk evs r =>
      have hsh := mcpStreamAttempt_shape ac ae st req
      rw [hma] at hsh
      cases r with
      | some st' =>
        rcases hsh with ⟨raw, hb, heq⟩ | heq
        · simp only at heq
          cases heq
          exact Or.inl ⟨raw, hb, by simp [chat_stream, hma]⟩
        · simp at heq
      | none =>
        cases hcs : chainStreamRun cc ce st req with
        | mk evs2 r2 =>
          have hsh2 := chainStreamRun_shape cc ce st req
          rw [hcs] at hsh2
          cases r2 with
          | ok st' =>
            rcases hsh2 with ⟨raw, hb, heq⟩ | ⟨e, heq⟩
            · simp only at heq
              cases heq
              exact Or.inl ⟨raw, hb, by simp [chat_stream, hma, hcs]⟩
            · simp at heq
          | error e => exact Or.inr (by simp [chat_stream, hma, hcs])

/-- History well-formedness: an alternating sequence of user/assistant turn
pairs, as produced by committing both turns together. -/
def paired : List Turn → Bool
  | [] => true
  | [_] => false
  | t1 :: t2 :: rest =>
    decide (t1.role = Role.user) && (decide (t2.role = Role.assistant) && paired rest)

theorem paired_append_aux (u a : List Char) :
    ∀ n, ∀ l : List Turn, l.length ≤ n → paired l = true →
      paired (l ++ [⟨Role.user, u⟩, ⟨Role.assistant, a⟩]) = true := by
  intro n
  induction n using Nat.strong_induction_on with
  | _ n ih =>
    intro l hl hp
    rcases l with _ | ⟨t1, _ | ⟨t2, rest⟩⟩
    · simp [paired]
    · simp [paired] at hp
    · simp only [paired, Bool.and_eq_true, decide_eq_true_eq] at hp
      obtain ⟨h1, h2, h3⟩ := hp
      have hlen : rest.length < n := by
        simp only [List.length_cons] at hl
        omega
      have hr := ih rest.length hlen rest le_rfl h3
      simp only [List.cons_append, paired, Bool.and_eq_true, decide_eq_true_eq]
      exact ⟨h1, h2, hr⟩

theorem paired_append_pair (l : List Turn) (hp : paired l = true) (u a : List Char) :
    paired (l ++ [⟨Role.user, u⟩, ⟨Role.assistant, a⟩]) = true :=
  paired_append_aux u a l.length l le_rfl hp

/-- C3: in both `chat` and `chat_stream`, either the store is left unchanged
(the request failed) or the user turn and the assistant turn are appended
together, with the assistant content being the strip_thinking_tags image of
the raw output, confirmed non-blank; hence a history made of user/assistant
pairs stays so, with no orphaned user turn.  (The further claim that stored
assistant content never includes a marker string fails: see the
counterexample.) -/
theorem c3_commit_pairing (useMcp : Bool) (agentOut chainOut : Except String (List Char))
    (ac cc : List (List Char)) (ae ce : Option String)
    (st : Store) (req : ChatRequest)
    (hp : paired (st req.session_id) = true) :
    (((chat useMcp agentOut chainOut st req).2 = st ∨
      ∃ raw, isBlank (strip_thinking_tags raw) = false ∧
        (chat useMcp agentOut chainOut st req).2 =
          commitPair st req.session_id req.input (strip_thinking_tags raw)) ∧
     paired ((chat useMcp agentOut chainOut st req).2 req.session_id) = true) ∧
    (((chat_stream useMcp ac ae cc ce st req).2 = st ∨
      ∃ raw, isBlank (strip_thinking_tags raw) = false ∧
        (chat_stream useMcp ac ae cc ce st req).2 =
          commitPair st req.session_id req.input (strip_thinking_tags raw)) ∧
     paired ((chat_stream useMcp ac ae cc ce st req).2 req.session_id) = true) := by
  constructor
  · rcases chat_shape useMcp agentOut chainOut st req with ⟨raw, hb, heq⟩ | ⟨e, heq⟩
    · have h2 : (chat useMcp agentOut chainOut st req).2 =
          commitPair st req.session_id req.input (strip_thinking_tags raw) := by
        rw [heq]
      refine ⟨Or.inr ⟨raw, hb, h2⟩, ?_⟩
      rw [h2, commitPair_same]
      exact paired_append_pair _ hp _ _
    · have h2 : (chat useMcp agentOut chainOut st req).2 = st := by rw [heq]
      exact ⟨Or.inl h2, by rw [h2]; exact hp⟩
  · rcases chat_stream_shape useMcp ac ae cc ce st req with ⟨raw, hb, heq⟩ | heq
    · refine ⟨Or.inr ⟨raw, hb, heq⟩, ?_⟩
      rw [heq, commitPair_same]
      exact paired_append_pair _ hp _ _
    · exact ⟨Or.inl heq, by rw [heq]; exact hp⟩

/-- C3 counterexample: a successful fallback `chat` request whose raw chain
output is "a<th<think>m</think>ink>b" stores the assistant turn
"a<think>b", whose content contains the start marker "<think>" at index 1:
the stored history does contain a marker string, against the claim. -/
theorem c3_counterexample :
    (chat false (.error "x") (.ok ("a<th<think>m</think>ink>b".toList))
        (fun _ => []) ⟨"s", "hi".toList⟩).2 "s" =
      [⟨Role.user, "hi".toList⟩, ⟨Role.assistant, "a<think>b".toList⟩] ∧
    firstIdx thinkOpen ("a<think>b".toList) = some 1 := by
  have hstt : strip_thinking_tags ("a<th<think>m</think>ink>b".toList) =
      "a<think>b".toList := by
    rw [stt_eval]
    decide
  have h1 : chat false (.error "x") (.ok ("a<th<think>m</think>ink>b".toList))
      (fun _ => []) ⟨"s", "hi".toList⟩ =
      fallbackChat (.ok ("a<th<think>m</think>ink>b".toList)) (fun _ => [])
        ⟨"s", "hi".toList⟩ := by
    simp [chat]
  have h2 : fallbackChat (.ok ("a<th<think>m</think>ink>b".toList)) (fun _ => [])
      ⟨"s", "hi".toList⟩ =
      (.ok ("a<think>b".toList),
       commitPair (fun _ => []) "s" ("hi".toList) ("a<think>b".toList)) := by
    simp only [fallbackChat]
    rw [hstt]
    rw [if_neg (by decide)]
  refine ⟨?_, by decide⟩
  rw [h1, h2]
  show commitPair (fun _ => []) "s" ("hi".toList) ("a<think>b".toList) "s" = _
  rw [commitPair_same]
  rfl

theorem c3_witness :
    paired ((fun _ => ([] : List Turn)) "s") = true ∧
    (((chat false (.error "x") (.error "y") (fun _ => []) ⟨"s", "hi".toList⟩).2 =
        (fun _ => []) ∨
      ∃ raw, isBlank (strip_thinking_tags raw) = false ∧
        (chat false (.error "x") (.error "y") (fun _ => []) ⟨"s", "hi".toList⟩).2 =
          commitPair (fun _ => []) "s" ("hi".toList) (strip_thinking_tags raw)) ∧
     paired ((chat false (.error "x") (.error "y")
        (fun _ => []) ⟨"s", "hi".toList⟩).2 "s") = true) ∧
    (((chat_stream false [] (some "e") [] (some "f")
        (fun _ => []) ⟨"s", "hi".toList⟩).2 = (fun _ => []) ∨
      ∃ raw, isBlank (strip_thinking_tags raw) = false ∧
        (chat_stream false [] (some "e") [] (some "f")
          (fun _ => []) ⟨"s", "hi".toList⟩).2 =
          commitPair (fun _ => []) "s" ("hi".toList) (strip_thinking_tags raw)) ∧
     paired ((chat_stream false [] (some "e") [] (some "f")
        (fun _ => []) ⟨"s", "hi".toList⟩).2 "s") = true) :=
  ⟨by decide,
   c3_commit_pairing false (.error "x") (.error "y") [] [] (some "e") (some "f")
     (fun _ => []) ⟨"s", "hi".toList⟩ (by decide)⟩

/-- C4: a failing MCP attempt commits nothing: in `chat` the attempt returns
the store unchanged and the fallback chain starts from that unchanged store;
if the fallback also fails the final store is exactly the initial one.  In
`chat_stream`, a failing MCP attempt (any fragments already produced, then an
exception) commits nothing, the chain part runs against the unchanged store,
and if it also fails the final store equals the initial one. -/
theorem c4_mcp_failure_atomicity (chainOut : Except String (List Char))
    (ac cc : List (List Char)) (ce : Option String) (st : Store) (req : ChatRequest)
    (e e2 : String) :
    (mcpChatAttempt (.error e) st req).2 = st ∧
    chat true (.error e) chainOut st req = fallbackChat chainOut st req ∧
    (chat true (.error e) (.error e2) st req).2 = st ∧
    (mcpStreamAttempt ac (some e) st req).2 = none ∧
    (chat_stream true ac (some e) cc ce st req).2 =
      (chat_stream false ac (some e) cc ce st req).2 ∧
    (chat_stream true ac (some e) cc (some e2) st req).2 = st := by
  refine ⟨rfl, by simp [chat, mcpChatAttempt], by simp [chat, mcpChatAttempt, fallbackChat],
    rfl, ?_, ?_⟩
  · cases hcs : chainStreamRun cc ce st req with
    | mk evs2 r =>
      cases r with
      | ok st' => simp [chat_stream, mcpStreamAttempt, hcs]
      | error e3 => simp [chat_stream, mcpStreamAttempt, hcs]
  · simp [chat_stream, mcpStreamAttempt, chainStreamRun]

/-- C5: with a tool path that always fails and a fallback chain whose raw
output filters to "ok", `chat` returns ok "ok" and the resulting store
appends exactly one user/assistant pair to the request's session and leaves
every other session untouched. -/
theorem c5_fallback_transparency (e : String) (raw : List Char) (st : Store)
    (req : ChatRequest) (h : strip_thinking_tags raw = "ok".toList) :
    chat true (.error e) (.ok raw) st req =
      (.ok ("ok".toList),
       fun s => if s = req.session_id
         then st req.session_id ++
           [⟨Role.user, req.input⟩, ⟨Role.assistant, "ok".toList⟩]
         else st s) := by
  have h1 : chat true (.error e) (.ok raw) st req = fallbackChat (.ok raw) st req := by
    simp [chat, mcpChatAttempt]
  rw [h1]
  simp only [fallbackChat]
  rw [h]
  rw [if_neg (by decide)]
  rfl

theorem c5_witness :
    strip_thinking_tags ("<think>z</think>ok".toList) = "ok".toList ∧
    chat true (.error "boom") (.ok ("<think>z</think>ok".toList))
        (fun _ => []) ⟨"s", "hi".toList⟩ =
      (.ok ("ok".toList),
       fun s => if s = ("s" : String)
         then [⟨Role.user, "hi".toList⟩, ⟨Role.assistant, "ok".toList⟩]
         else []) :=
  ⟨by rw [stt_eval]; decide,
   c5_fallback_transparency "boom" ("<think>z</think>ok".toList) (fun _ => [])
     ⟨"s", "hi".toList⟩ (by rw [stt_eval]; decide)⟩

open StreamingThinkFilter in
theorem streamTokens_tokens (cs : List (List Char)) : ∀ (f : StreamingThinkFilter),
    ∀ ev ∈ (streamTokens f cs).1, ∃ d, ev = SSEEvent.token d := by
  induction cs with
  | nil =>
    intro f ev h
    simp [streamTokens] at h
  | cons c cs ih =>
    intro f ev h
    simp only [streamTokens, List.mem_append] at h
    rcases h with h | h
    · by_cases hc : (process f c).1 = []
      · rw [if_pos hc] at h
        cases h
      · rw [if_neg hc] at h
        simp only [List.mem_singleton] at h
        exact ⟨_, h⟩
    · exact ih _ ev h

open StreamingThinkFilter in
theorem streamEvents_tokens (cs : List (List Char)) :
    ∀ ev ∈ streamEvents cs, ∃ d, ev = SSEEvent.token d := by
  intro ev h
  simp only [streamEvents, List.mem_append] at h
  rcases h with h | h
  · exact streamTokens_tokens cs init ev h
  · by_cases hc : (flush (streamTokens init cs).2).1 = []
    · rw [if_pos hc] at h
      cases h
    · rw [if_neg hc] at h
      simp only [List.mem_singleton] at h
      exact ⟨_, h⟩

theorem mcpStreamAttempt_tokens (ac : List (List Char)) (ae : Option String)
    (st : Store) (req : ChatRequest) :
    ∀ ev ∈ (mcpStreamAttempt ac ae st req).1, ∃ d, ev = SSEEvent.token d := by
  intro ev h
  cases ae with
  | some e => exact streamTokens_tokens ac _ ev h
  | none =>
    by_cases hb : (!streamEmitted ac || isBlank (strip_thinking_tags (fullContent ac))) = true
    · rw [show mcpStreamAttempt ac none st req = (streamEvents ac, none) from by
        simp only [mcpStreamAttempt]; rw [if_pos hb]] at h
      exact streamEvents_tokens ac ev h
    · rw [show (mcpStreamAttempt ac none st req).1 = streamEvents ac from by
        simp only [mcpStreamAttempt]; rw [if_neg hb]] at h
      exact streamEvents_tokens ac ev h

theorem chainStreamRun_tokens (cc : List (List Char)) (ce : Option String)
    (st : Store) (req : ChatRequest) :
    ∀ ev ∈ (chainStreamRun cc ce st req).1, ∃ d, ev = SSEEvent.token d := by
  intro ev h
  cases ce with
  | some e => exact streamTokens_tokens cc _ ev h
  | none =>
    by_cases hb : (!streamEmitted cc || isBlank (strip_thinking_tags (fullContent cc))) = true
    · rw [show (chainStreamRun cc none st req).1 = streamEvents cc from by
        simp only [chainStreamRun]; rw [if_pos hb]] at h
      exact streamEvents_tokens cc ev h
    · rw [show (chainStreamRun cc none st req).1 = streamEvents cc from by
        simp only [chainStreamRun]; rw [if_neg hb]] at h
      exact streamEvents_tokens cc ev h

/-- C6: every `chat_stream` event sequence consists of token events followed
by exactly one terminal done event, either directly or preceded immediately
by a single error event: done is always last and sent exactly once, and any
error event is immediately followed by it. -/
theorem c6_done_terminal (useMcp : Bool) (ac cc : List (List Char))
    (ae ce : Option String) (st : Store) (req : ChatRequest) :
    ∃ front, (∀ ev ∈ front, ∃ d, ev = SSEEvent.token d) ∧
      ((chat_stream useMcp ac ae cc ce st req).1 =
          front ++ [SSEEvent.done req.session_id] ∨
       ∃ e, (chat_stream useMcp ac ae cc ce st req).1 =
          front ++ [SSEEvent.error e, SSEEvent.done req.session_id]) := by
  cases useMcp
  · cases hcs : chainStreamRun cc ce st req with
    | mk evs2 r =>
      have htok : ∀ ev ∈ evs2, ∃ d, ev = SSEEvent.token d := by
        have := chainStreamRun_tokens cc ce st req
        rw [hcs] at this
        exact this
      cases r with
      | ok st' => exact ⟨evs2, htok, Or.inl (by simp [chat_stream, hcs])⟩
      | error e => exact ⟨evs2, htok, Or.inr ⟨e, by simp [chat_stream, hcs]⟩⟩
  · cases hma : mcpStreamAttempt ac ae st req with
    | mk evs r =>
      have htokA : ∀ ev ∈ evs, ∃ d, ev = SSEEvent.token d := by
        have := mcpStreamAttempt_tokens ac ae st req
        rw [hma] at this
        exact this
      cases r with
      | some st' => exact ⟨evs, htokA, Or.inl (by simp [chat_stream, hma])⟩
      | none =>
        cases hcs : chainStreamRun cc ce st req with
        | mk evs2 r2 =>
          have htokC : ∀ ev ∈ evs2, ∃ d, ev = SSEEvent.token d := by
            have := chainStreamRun_tokens cc ce st req
            rw [hcs] at this
            exact this
          have htok : ∀ ev ∈ evs ++ evs2, ∃ d, ev = SSEEvent.token d := by
            intro ev h
            rcases List.mem_append.mp h with h | h
            · exact htokA ev h
            · exact htokC ev h
          cases r2 with
          | ok st' =>
            refine ⟨evs ++ evs2, htok, Or.inl ?_⟩
            simp [chat_stream, hma, hcs]
          | error e =>
            refine ⟨evs ++ evs2, htok, Or.inr ⟨e, ?_⟩⟩
            simp [chat_stream, hma, hcs]

/-- C10: session histories are isolated by key: reading the history of any
session id other than the request's one after a `chat` or `chat_stream`
request returns exactly what it returned before; reading with the same id
twice returns the same history; and a committed pair is visible precisely
under the request's own session id. -/
theorem c10_session_isolation (useMcp : Bool) (agentOut chainOut : Except String (List Char))
    (ac cc : List (List Char)) (ae ce : Option String) (st : Store) (req : ChatRequest)
    (t : List Char) (s' : String) (hs : s' ≠ req.session_id) :
    get_session_history ((chat useMcp agentOut chainOut st req).2) s' =
      get_session_history st s' ∧
    get_session_history ((chat_stream useMcp ac ae cc ce st req).2) s' =
      get_session_history st s' ∧
    get_session_history (commitPair st req.session_id req.input t) s' =
      get_session_history st s' ∧
    get_session_history (commitPair st req.session_id req.input t) req.session_id =
      get_session_history st req.session_id ++
        [⟨Role.user, req.input⟩, ⟨Role.assistant, t⟩] ∧
    get_session_history st s' = get_session_history st s' := by
  refine ⟨?_, ?_, commitPair_frame st req.session_id req.input t s' hs,
    commitPair_same st req.session_id req.input t, rfl⟩
  · rcases chat_shape useMcp agentOut chainOut st req with ⟨raw, _, heq⟩ | ⟨e, heq⟩
    · show (chat useMcp agentOut chainOut st req).2 s' = st s'
      rw [heq]
      exact commitPair_frame st req.session_id req.input _ s' hs
    · show (chat useMcp agentOut chainOut st req).2 s' = st s'
      rw [heq]
  · rcases chat_stream_shape useMcp ac ae cc ce st req with ⟨raw, _, heq⟩ | heq
    · show (chat_stream useMcp ac ae cc ce st req).2 s' = st s'
      rw [heq]
      exact commitPair_frame st req.session_id req.input _ s' hs
    · show (chat_stream useMcp ac ae cc ce st req).2 s' = st s'
      rw [heq]

theorem c10_witness :
    ("b" : String) ≠ "a" ∧
    (get_session_history ((chat false (.error "x") (.error "y")
        (fun _ => []) ⟨"a", "hi".toList⟩).2) "b" =
      get_session_history (fun _ => []) "b" ∧
    get_session_history ((chat_stream false [] (some "e") [] (some "f")
        (fun _ => []) ⟨"a", "hi".toList⟩).2) "b" =
      get_session_history (fun _ => []) "b" ∧
    get_session_history (commitPair (fun _ => []) "a" ("hi".toList) ("t".toList)) "b" =
      get_session_history (fun _ => []) "b" ∧
    get_session_history (commitPair (fun _ => []) "a" ("hi".toList) ("t".toList)) "a" =
      get_session_history (fun _ => []) "a" ++
        [⟨Role.user, "hi".toList⟩, ⟨Role.assistant, "t".toList⟩] ∧
    get_session_history (fun _ => ([] : List Turn)) "b" =
      get_session_history (fun _ => []) "b") :=
  ⟨by decide,
   c10_session_isolation false (.error "x") (.error "y") [] [] (some "e") (some "f")
     (fun _ => []) ⟨"a", "hi".toList⟩ ("t".toList) "b" (by decide)⟩

end RoutesChat
